import Mathlib

/-!
Verification of the node_react_flow graph-evaluation engine and its
edit-history manager, shallowly embedded from the TypeScript sources
(`src/utils/graphUtils.ts` alias `src/unnamed/part_000`, `src/types.ts`
alias `src/unnamed/part_001`, and `src/App.tsx`).

JavaScript numbers are modelled as rationals plus an explicit NaN
sentinel (`JSVal`); `undefined` is modelled as `Option.none`.  The JS
strict-equality operator `===` on `number | undefined` is `jsStrictEq`:
`undefined === undefined` is true, `NaN === NaN` is false, and finite
numbers compare by value.
-/

/-- A JavaScript number as used by the calculator: a finite value
(modelled as a rational) or the `NaN` taint sentinel produced by
division by zero. -/
inductive JSVal where
  | num (q : ℚ)
  | nan
deriving DecidableEq, Repr

/-- JS strict equality `===` on `number | undefined` values:
`undefined === undefined` holds, finite numbers compare by value, and
`NaN` is unequal to everything, itself included.  The evaluator's
changed-test `node.data.value !== newValue` is the negation of this. -/
def jsStrictEq : Option JSVal → Option JSVal → Bool
  | none, none => true
  | some (JSVal.num a), some (JSVal.num b) => a == b
  | _, _ => false

/-- JS `a + b`: NaN absorbs. -/
def jsAdd : JSVal → JSVal → JSVal
  | JSVal.num a, JSVal.num b => JSVal.num (a + b)
  | _, _ => JSVal.nan

/-- JS `a - b`: NaN absorbs. -/
def jsSub : JSVal → JSVal → JSVal
  | JSVal.num a, JSVal.num b => JSVal.num (a - b)
  | _, _ => JSVal.nan

/-- JS `a * b`: NaN absorbs. -/
def jsMul : JSVal → JSVal → JSVal
  | JSVal.num a, JSVal.num b => JSVal.num (a * b)
  | _, _ => JSVal.nan

/-- The divide case of the evaluator, `valB !== 0 ? valA / valB : NaN`:
a zero denominator yields the NaN sentinel outright, and a NaN operand
(which satisfies `valB !== 0`) makes the JS division itself return NaN. -/
def jsDiv : JSVal → JSVal → JSVal
  | JSVal.num a, JSVal.num b => if b = 0 then JSVal.nan else JSVal.num (a / b)
  | _, _ => JSVal.nan

/-- `NodeType` from `src/types.ts`. -/
inductive NodeType where
  | input
  | output
  | math
deriving DecidableEq, Repr

/-- `MathOperation` from `src/types.ts`. -/
inductive MathOperation where
  | add
  | subtract
  | multiply
  | divide
deriving DecidableEq, Repr

/-- `NodeData` from `src/types.ts`.  The `onChange` callback field is a
UI function reference never read by the evaluator or the history
manager, so it is omitted from the embedding. -/
structure NodeData where
  label : Option String := none
  value : Option JSVal := none
  inputValue : Option JSVal := none
  operation : Option MathOperation := none
deriving DecidableEq, Repr

/-- `AppNode` (`Node<NodeData>` from reactflow): the fields the program
reads. -/
structure AppNode where
  id : String
  type : NodeType
  position : ℚ × ℚ := (0, 0)
  data : NodeData
deriving DecidableEq, Repr

/-- `AppEdge` (`Edge` from reactflow): the fields the program reads. -/
structure AppEdge where
  id : String := ""
  source : String
  target : String
  targetHandle : Option String := none
deriving DecidableEq, Repr

/-- The edge predicate inside `getSourceValue`:
`e.target === targetNodeId && (handleId ? e.targetHandle === handleId : true)`.
A `null` handle id (modelled `none`) is falsy, so it matches any edge
pointing at the node. -/
def matchesTarget (targetNodeId : String) (handleId : Option String) (e : AppEdge) : Bool :=
  e.target == targetNodeId &&
    (match handleId with
     | some h => e.targetHandle == some h
     | none => true)

/-- `nodeMap.get(nid)`.  The node map is represented as a list of nodes
in insertion order with pairwise distinct ids (which `buildNodeMap`
guarantees), so JS `Map.get` is first-match lookup by id. -/
def lookNode (m : List AppNode) (nid : String) : Option AppNode :=
  m.find? (fun n => n.id == nid)

/-- `getSourceValue` from `calculateGraph`: find the first edge into
`(targetNodeId, handleId)`; follow it to the source node in the map;
read `inputValue` from an Input source and `value` otherwise.  A
missing edge, or an edge whose source id is absent from the map
(`sourceNode?.data.value` on `undefined`), yields `undefined`. -/
def getSourceValue (edges : List AppEdge) (m : List AppNode)
    (targetNodeId : String) (handleId : Option String) : Option JSVal :=
  match edges.find? (matchesTarget targetNodeId handleId) with
  | none => none
  | some edge =>
    match lookNode m edge.source with
    | none => none
    | some sourceNode =>
      if sourceNode.type == NodeType.input then sourceNode.data.inputValue
      else sourceNode.data.value

/-- The body of the per-node recomputation in the evaluation pass: the
`newValue` assigned to a non-Input node from the current map state.  A
MATH node needs both ports resolved and a present `operation` (the JS
`switch` on `undefined` leaves `newValue` undefined); an OUTPUT node
reads its single input with a null handle id. -/
def computeNode (edges : List AppEdge) (m : List AppNode) (node : AppNode) : Option JSVal :=
  if node.type == NodeType.math then
    match getSourceValue edges m node.id (some "a"),
          getSourceValue edges m node.id (some "b") with
    | some valA, some valB =>
      match node.data.operation with
      | some MathOperation.add => some (jsAdd valA valB)
      | some MathOperation.subtract => some (jsSub valA valB)
      | some MathOperation.multiply => some (jsMul valA valB)
      | some MathOperation.divide => some (jsDiv valA valB)
      | none => none
    | _, _ => none
  else if node.type == NodeType.output then
    getSourceValue edges m node.id none
  else
    none

/-- The in-place mutation `node.data.value = newValue` on the map entry
with the given id. -/
def setNodeValue (m : List AppNode) (nid : String) (v : Option JSVal) : List AppNode :=
  m.map (fun n => if n.id == nid then { n with data := { n.data with value := v } } else n)

/-- One step of the `for (const node of nodeMap.values())` loop, on the
running `(map, changed)` accumulator: skip Input nodes, recompute
`newValue` from the current (partially updated) map, and write it back
with `changed = true` exactly when `node.data.value !== newValue`.
The source's `let newValue = ...` binding is inlined (it is pure). -/
def passStep (edges : List AppEdge) (acc : List AppNode × Bool) (nid : String) :
    List AppNode × Bool :=
  match lookNode acc.1 nid with
  | none => acc
  | some node =>
    if node.type == NodeType.input then acc
    else
      if jsStrictEq node.data.value (computeNode edges acc.1 node) then acc
      else (setNodeValue acc.1 nid (computeNode edges acc.1 node), true)

/-- One full pass of the `while` loop body: iterate over the map's
nodes in insertion order, threading in-pass updates (a node computed
later in the pass sees values written earlier in the same pass), and
report whether any value changed. -/
def runPass (edges : List AppEdge) (m : List AppNode) : List AppNode × Bool :=
  (m.map (fun n => n.id)).foldl (passStep edges) (m, false)

/-- The `while (changed && iterations < 50)` loop, with `fuel` the
remaining allowance of passes; returns the final map together with the
number of passes executed. -/
def calcLoop (edges : List AppEdge) : Nat → List AppNode → List AppNode × Nat
  | 0, m => (m, 0)
  | fuel + 1, m =>
    let p := runPass edges m
    if p.2 then
      let r := calcLoop edges fuel p.1
      (r.1, r.2 + 1)
    else (p.1, 1)

/-- Construction of `nodeMap`: `nodes.forEach(n => nodeMap.set(n.id, clone n))`.
JS `Map.set` updates an existing key in place (keeping its insertion
position) and appends a new key.  The clone `{ ...node, data: { ...node.data } }`
is the identity on our immutable values. -/
def buildNodeMap (nodes : List AppNode) : List AppNode :=
  nodes.foldl
    (fun m n =>
      if m.any (fun o => o.id == n.id) then
        m.map (fun o => if o.id == n.id then n else o)
      else m ++ [n])
    []

/-- `calculateGraph` from `src/utils/graphUtils.ts`: build the node
map, iterate passes to stability or the 50-pass ceiling, and return
`Array.from(nodeMap.values())`. -/
def calculateGraph (nodes : List AppNode) (edges : List AppEdge) : List AppNode :=
  (calcLoop edges 50 (buildNodeMap nodes)).1

/-- The number of passes the `while` loop of `calculateGraph` executes
(the final value of its `iterations` counter). -/
def calcPassCount (nodes : List AppNode) (edges : List AppEdge) : Nat :=
  (calcLoop edges 50 (buildNodeMap nodes)).2

/-- The computed `data.value` of the node with the given id in a node
collection (`none` both for an unresolved value and for an absent id). -/
def valAt (m : List AppNode) (nid : String) : Option JSVal :=
  match lookNode m nid with
  | none => none
  | some n => n.data.value

/-- Shorthand for building an Input node as the app does. -/
def mkInput (i : String) (q : ℚ) : AppNode :=
  { id := i, type := NodeType.input, data := { inputValue := some (JSVal.num q) } }

/-- Shorthand for building a Math node. -/
def mkMath (i : String) (op : MathOperation) : AppNode :=
  { id := i, type := NodeType.math, data := { operation := some op } }

/-- Shorthand for building an Output node. -/
def mkOutput (i : String) : AppNode :=
  { id := i, type := NodeType.output, data := {} }

/-- Shorthand for building an edge as `onConnect` does. -/
def mkEdge (s t : String) (h : Option String) : AppEdge :=
  { id := s ++ "-" ++ t, source := s, target := t, targetHandle := h }

/-! ## History manager (`src/App.tsx`) -/

/-- A history entry, `{nodes, edges}`: the full graph at one instant. -/
structure GraphSnapshot where
  nodes : List AppNode
  edges : List AppEdge
deriving DecidableEq, Repr

/-- The `history` state of the app: the `past` and `future` stacks. -/
structure History where
  past : List GraphSnapshot
  future : List GraphSnapshot
deriving DecidableEq, Repr

/-- `past.slice(-20)`: the last (at most) 20 entries. -/
def sliceLast20 (l : List GraphSnapshot) : List GraphSnapshot :=
  l.drop (l.length - 20)

/-- `takeSnapshot` from `src/App.tsx`: compare the current graph with
the top of `past` by value (`JSON.stringify` on each component, which
on this data coincides with structural equality); on a duplicate the
previous history is returned unchanged, otherwise the last 20 past
entries plus the current graph become `past` and `future` is cleared. -/
def takeSnapshot (current : GraphSnapshot) (h : History) : History :=
  if (match h.past.getLast? with
      | some last => last.nodes == current.nodes && last.edges == current.edges
      | none => false) then h
  else { past := sliceLast20 h.past ++ [current], future := [] }

/-- The app's full undo-relevant state: the live graph plus history. -/
structure FlowState where
  graph : GraphSnapshot
  history : History
deriving DecidableEq, Repr

/-- `undo` from `src/App.tsx`: a no-op when `past` is empty; otherwise
pop the most recent past snapshot into the live graph and unshift the
pre-undo live graph onto `future`. -/
def undoState (s : FlowState) : FlowState :=
  if s.history.past.length = 0 then s
  else
    match s.history.past.getLast? with
    | none => s
    | some stateToRestore =>
      { graph := stateToRestore,
        history := { past := s.history.past.dropLast,
                     future := s.graph :: s.history.future } }

/-- `redo` from `src/App.tsx`: a no-op when `future` is empty;
otherwise shift the earliest future snapshot into the live graph and
push the pre-redo live graph onto the end of `past`. -/
def redoState (s : FlowState) : FlowState :=
  if s.history.future.length = 0 then s
  else
    match s.history.future with
    | [] => s
    | stateToRestore :: rest =>
      { graph := stateToRestore,
        history := { past := s.history.past ++ [s.graph],
                     future := rest } }

/-- A forward mutation as the app performs it: `takeSnapshot()` of the
pre-mutation graph followed by replacing the live graph (every mutating
handler in `App.tsx` — connect, drop, drag start, delete, value and
data updates — follows this shape). -/
def mutateState (g : GraphSnapshot) (s : FlowState) : FlowState :=
  { graph := g, history := takeSnapshot s.graph s.history }

/-- The operations driving the history state machine. -/
inductive HistOp where
  | mutate (g : GraphSnapshot)
  | undo
  | redo

/-- Apply one history operation. -/
def applyHistOp (s : FlowState) : HistOp → FlowState
  | HistOp.mutate g => mutateState g s
  | HistOp.undo => undoState s
  | HistOp.redo => redoState s

/-- Apply a sequence of history operations, oldest first. -/
def applyHistOps (s : FlowState) (ops : List HistOp) : FlowState :=
  ops.foldl applyHistOp s

/-! ## Reference-semantics model of snapshotting (`src/App.tsx`)

The claims about snapshot isolation are about JS aliasing, so this
fragment models the heap explicitly: node objects live in a heap
addressed by reference, the live `nodes` array and every archived
snapshot hold references, and `updateNodeValue` reassigns the `data`
field of the referenced node object in place.  `takeSnapshot` stores
`{ nodes: currentNodes, edges: currentEdges }` — the reference list
itself, with no clone (`src/App.tsx` line 74). -/

/-- A node object on the JS heap (the fields snapshot claims need). -/
structure NodeObj where
  id : String
  type : NodeType
  data : NodeData
deriving DecidableEq, Repr

/-- The heap: addresses to node objects. -/
abbrev Heap : Type := List (Nat × NodeObj)

/-- Dereference an address. -/
def heapGet (h : Heap) (a : Nat) : Option NodeObj :=
  match h.find? (fun p => p.1 == a) with
  | none => none
  | some p => p.2

/-- Overwrite the object at an address. -/
def heapSet (h : Heap) (a : Nat) (o : NodeObj) : Heap :=
  h.map (fun p => if p.1 == a then (a, o) else p)

/-- The app state in the reference model: heap, the live nodes array
(a list of references) and the history's `past` stack, whose entries
are the reference lists stored by `takeSnapshot`. -/
structure RefState where
  heap : Heap
  liveNodes : List Nat
  pastNodes : List (List Nat)
deriving Repr

/-- The contents a reader sees when inspecting a stored snapshot:
dereference each node reference in the archived array. -/
def derefNodes (h : Heap) (refs : List Nat) : List (Option NodeObj) :=
  refs.map (heapGet h)

/-- `takeSnapshot` in the reference model: push the live `nodes` array
(the references themselves, not copies) onto `past`.  The duplicate
check and 20-entry bound are orthogonal to aliasing and are elided
here; the failing scenario below starts from an empty `past`, where
both are vacuous. -/
def takeSnapshotRef (s : RefState) : RefState :=
  { s with pastNodes := s.pastNodes ++ [s.liveNodes] }

/-- `updateNodeValue(id, val)` from `src/App.tsx`: first `takeSnapshot()`,
then map over the live array and, on the node whose id matches, mutate
the shared object via `node.data = { ...node.data, inputValue: val }`;
the array keeps the same references. -/
def updateNodeValueRef (nid : String) (val : JSVal) (s : RefState) : RefState :=
  let s1 := takeSnapshotRef s
  let heap' :=
    s1.liveNodes.foldl
      (fun h r =>
        match heapGet h r with
        | none => h
        | some node =>
          if node.id == nid then
            heapSet h r { node with data := { node.data with inputValue := some val } }
          else h)
      s1.heap
  { s1 with heap := heap' }

/-! ## Jacobi reference iteration

Used to name the stable values of an acyclic graph: one Jacobi pass
recomputes every non-Input node from the previous state only (no
in-pass propagation).  This is a specification device for the
convergence proof, not part of the source embedding; the evaluator's
own pass is `runPass`. -/

/-- One Jacobi pass: recompute every non-Input node's value from `m`. -/
def jacobiPass (edges : List AppEdge) (m : List AppNode) : List AppNode :=
  m.map (fun n =>
    if n.type == NodeType.input then n
    else { n with data := { n.data with value := computeNode edges m n } })

/-- Iterated Jacobi passes. -/
def jacobiIter (edges : List AppEdge) : Nat → List AppNode → List AppNode
  | 0, m => m
  | k + 1, m => jacobiPass edges (jacobiIter edges k m)

/-! ## Basic lemmas about values and lookups -/

theorem jsStrictEq_eq {x y : Option JSVal} (h : jsStrictEq x y = true) : x = y := by
  cases x with
  | none => cases y with
    | none => rfl
    | some b => cases b <;> simp [jsStrictEq] at h
  | some a => cases y with
    | none => cases a <;> simp [jsStrictEq] at h
    | some b =>
      cases a <;> cases b <;> simp_all [jsStrictEq]

theorem jsStrictEq_self {x : Option JSVal} (h : x ≠ some JSVal.nan) :
    jsStrictEq x x = true := by
  cases x with
  | none => rfl
  | some a => cases a with
    | num q => simp [jsStrictEq]
    | nan => exact absurd rfl h

theorem jsStrictEq_nan : jsStrictEq (some JSVal.nan) (some JSVal.nan) = false := rfl

theorem lookNode_mem {m : List AppNode} {nid : String} {n : AppNode}
    (h : lookNode m nid = some n) : n ∈ m ∧ n.id = nid := by
  refine ⟨List.mem_of_find?_eq_some h, ?_⟩
  have := List.find?_some h
  simpa using this

theorem lookNode_map_of_id {f : AppNode → AppNode} (hf : ∀ n, (f n).id = n.id)
    (m : List AppNode) (nid : String) :
    lookNode (m.map f) nid = (lookNode m nid).map f := by
  unfold lookNode
  have hp : ((fun n : AppNode => n.id == nid) ∘ f) = (fun n : AppNode => n.id == nid) := by
    funext n
    simp [Function.comp, hf n]
  rw [List.find?_map, hp]

theorem setNodeValue_keeps_id (nid : String) (v : Option JSVal) :
    ∀ (n : AppNode),
      (if n.id == nid then { n with data := { n.data with value := v } } else n).id = n.id := by
  intro n
  by_cases h : n.id = nid <;> simp [h]

theorem lookNode_setNodeValue (m : List AppNode) (nid j : String) (v : Option JSVal) :
    lookNode (setNodeValue m nid v) j =
      (lookNode m j).map
        (fun n => if n.id == nid then { n with data := { n.data with value := v } } else n) := by
  unfold setNodeValue
  exact lookNode_map_of_id (setNodeValue_keeps_id nid v) m j

theorem lookNode_setNodeValue_ne {m : List AppNode} {nid j : String} (hne : j ≠ nid)
    (v : Option JSVal) : lookNode (setNodeValue m nid v) j = lookNode m j := by
  rw [lookNode_setNodeValue]
  cases h : lookNode m j with
  | none => rfl
  | some n =>
    have hid := (lookNode_mem h).2
    simp [hid, hne]

theorem valAt_setNodeValue_ne {m : List AppNode} {nid j : String} (hne : j ≠ nid)
    (v : Option JSVal) : valAt (setNodeValue m nid v) j = valAt m j := by
  unfold valAt
  rw [lookNode_setNodeValue_ne hne]

theorem valAt_setNodeValue_self {m : List AppNode} {nid : String} {n : AppNode}
    (h : lookNode m nid = some n) (v : Option JSVal) :
    valAt (setNodeValue m nid v) nid = v := by
  unfold valAt
  rw [lookNode_setNodeValue, h]
  have hid := (lookNode_mem h).2
  simp [hid]

/-! ## The evolution relation: what an evaluation pass may and may not change

`evoRel a b` relates a node `a` of the original collection to its
counterpart `b` in a later evaluation state: everything except the
computed `value` agrees, and an Input node's `value` is untouched too. -/

/-- All fields except the computed `data.value` agree. -/
def sameSkeleton (a b : AppNode) : Prop :=
  a.id = b.id ∧ a.type = b.type ∧ a.position = b.position ∧
  a.data.label = b.data.label ∧ a.data.inputValue = b.data.inputValue ∧
  a.data.operation = b.data.operation

/-- Evaluation may only rewrite the computed value of a non-Input node. -/
def evoRel (a b : AppNode) : Prop :=
  sameSkeleton a b ∧ (a.type = NodeType.input → b.data.value = a.data.value)

/-- A later evaluation state, pointwise related to the original list. -/
def EvoFrom (m0 m : List AppNode) : Prop := List.Forall₂ evoRel m0 m

theorem sameSkeleton_refl (a : AppNode) : sameSkeleton a a :=
  ⟨rfl, rfl, rfl, rfl, rfl, rfl⟩

theorem evoRel_refl (a : AppNode) : evoRel a a :=
  ⟨sameSkeleton_refl a, fun _ => rfl⟩

theorem evoFrom_refl (m : List AppNode) : EvoFrom m m :=
  (List.forall₂_same).mpr (fun a _ => evoRel_refl a)

theorem evoFrom_ids {m0 m : List AppNode} (h : EvoFrom m0 m) :
    m0.map (fun n => n.id) = m.map (fun n => n.id) := by
  induction h with
  | nil => rfl
  | cons hr _ ih => simp [hr.1.1, ih]

theorem valAt_eq_of_look {m : List AppNode} {nid : String} {n : AppNode}
    (h : lookNode m nid = some n) : valAt m nid = n.data.value := by
  unfold valAt
  rw [h]

theorem valAt_eq_none_of_look {m : List AppNode} {nid : String}
    (h : lookNode m nid = none) : valAt m nid = none := by
  unfold valAt
  rw [h]

/-- `find?` on two pointwise-related lists whose predicate cannot tell
related elements apart returns related results. -/
theorem find?_rel {R : AppNode → AppNode → Prop} {p q : AppNode → Bool}
    (hpq : ∀ a b, R a b → p a = q b) :
    ∀ {l l' : List AppNode}, List.Forall₂ R l l' →
      Option.Rel R (l.find? p) (l'.find? q) := by
  intro l l' h
  induction h with
  | nil => exact Option.Rel.none
  | @cons a b l₁ l₂ hr ht ih =>
    rw [List.find?_cons, List.find?_cons, ← hpq a b hr]
    cases hp : p a with
    | true => exact Option.Rel.some hr
    | false => exact ih

theorem lookNode_evo {m0 m : List AppNode} (h : EvoFrom m0 m) (nid : String) :
    Option.Rel evoRel (lookNode m0 nid) (lookNode m nid) :=
  find?_rel (fun a b hr => by simp [hr.1.1]) h

/-- With pairwise-distinct ids, the unique entry carrying an id is the
one `lookNode` finds. -/
theorem eq_of_mem_of_nodup_id :
    ∀ {m : List AppNode}, (m.map (fun n => n.id)).Nodup →
      ∀ {nid : String} {node : AppNode}, lookNode m nid = some node →
      ∀ b ∈ m, b.id = nid → b = node := by
  intro m
  induction m with
  | nil => intro _ _ _ h; simp [lookNode] at h
  | cons c rest ih =>
    intro hnodup nid node hl b hb hbid
    simp only [List.map_cons, List.nodup_cons] at hnodup
    unfold lookNode at hl
    rw [List.find?_cons] at hl
    by_cases hc : c.id = nid
    · have hceq : (c.id == nid) = true := by simp [hc]
      rw [hceq] at hl
      have hnode : c = node := Option.some.inj hl
      rcases List.mem_cons.mp hb with hbc | hbr
      · rw [hbc, hnode]
      · exfalso
        apply hnodup.1
        have hmem : b.id ∈ rest.map (fun n => n.id) := List.mem_map_of_mem (fun n => n.id) hbr
        rw [hbid] at hmem
        rw [hc]
        exact hmem
    · have hceq : (c.id == nid) = false := by simp [hc]
      rw [hceq] at hl
      rcases List.mem_cons.mp hb with hbc | hbr
      · exact absurd (hbc ▸ hbid) hc
      · exact ih hnodup.2 hl b hbr hbid

theorem evoFrom_map_mem {m0 m : List AppNode} (h : EvoFrom m0 m) (f : AppNode → AppNode)
    (hf : ∀ a b, b ∈ m → evoRel a b → evoRel a (f b)) : EvoFrom m0 (m.map f) := by
  induction h with
  | nil => exact List.Forall₂.nil
  | cons hr ht ih =>
    rename_i a b l₁ l₂
    exact List.Forall₂.cons (hf a b (List.mem_cons_self b l₂) hr)
      (ih (fun a' b' hb' => hf a' b' (List.mem_cons_of_mem b hb')))

theorem evoRel_update {a b : AppNode} (hr : evoRel a b) (hbt : ¬ b.type = NodeType.input)
    (v : Option JSVal) : evoRel a { b with data := { b.data with value := v } } := by
  refine ⟨⟨hr.1.1, hr.1.2.1, hr.1.2.2.1, hr.1.2.2.2.1, hr.1.2.2.2.2.1,
    hr.1.2.2.2.2.2⟩, ?_⟩
  intro hins
  exact absurd (hr.1.2.1.symm.trans hins) hbt

theorem evoFrom_setNodeValue {m0 m : List AppNode} (h : EvoFrom m0 m)
    {nid : String} {node : AppNode} (hl : lookNode m nid = some node)
    (ht : ¬ node.type = NodeType.input)
    (hnodup : (m0.map (fun n => n.id)).Nodup)
    (v : Option JSVal) : EvoFrom m0 (setNodeValue m nid v) := by
  have hnodup' : (m.map (fun n => n.id)).Nodup := evoFrom_ids h ▸ hnodup
  apply evoFrom_map_mem h
  intro a b hb hr
  by_cases hid : b.id = nid
  · have hbn : b = node := eq_of_mem_of_nodup_id hnodup' hl b hb hid
    have hbt : ¬ b.type = NodeType.input := by rw [hbn]; exact ht
    have hbeq : (b.id == nid) = true := by simp [hid]
    simpa [hbeq] using evoRel_update hr hbt v
  · have hbeq : (b.id == nid) = false := by simp [hid]
    simpa [hbeq] using hr

/-! ## Pass and loop structure lemmas -/

theorem evoFrom_passStep {m0 : List AppNode} (hnodup : (m0.map (fun n => n.id)).Nodup)
    (edges : List AppEdge) {acc : List AppNode × Bool} (h : EvoFrom m0 acc.1) (nid : String) :
    EvoFrom m0 (passStep edges acc nid).1 := by
  unfold passStep
  split
  · exact h
  · rename_i node hl
    split
    · exact h
    · rename_i hty
      split
      · exact h
      · exact evoFrom_setNodeValue h hl (by simpa using hty) hnodup _

theorem evoFrom_foldl {m0 : List AppNode} (hnodup : (m0.map (fun n => n.id)).Nodup)
    (edges : List AppEdge) :
    ∀ (ids : List String) (acc : List AppNode × Bool), EvoFrom m0 acc.1 →
      EvoFrom m0 ((ids.foldl (passStep edges) acc)).1 := by
  intro ids
  induction ids with
  | nil => intro acc h; exact h
  | cons i rest ih =>
    intro acc h
    rw [List.foldl_cons]
    exact ih _ (evoFrom_passStep hnodup edges h i)

theorem evoFrom_runPass {m0 : List AppNode} (hnodup : (m0.map (fun n => n.id)).Nodup)
    (edges : List AppEdge) {m : List AppNode} (h : EvoFrom m0 m) :
    EvoFrom m0 (runPass edges m).1 :=
  evoFrom_foldl hnodup edges _ (m, false) h

theorem evoFrom_calcLoop {m0 : List AppNode} (hnodup : (m0.map (fun n => n.id)).Nodup)
    (edges : List AppEdge) :
    ∀ (fuel : Nat) {m : List AppNode}, EvoFrom m0 m → EvoFrom m0 (calcLoop edges fuel m).1 := by
  intro fuel
  induction fuel with
  | zero => intro m h; exact h
  | succ f ih =>
    intro m h
    simp only [calcLoop]
    cases hp : (runPass edges m).2 with
    | true =>
      simp only [if_pos rfl]
      exact ih (evoFrom_runPass hnodup edges h)
    | false =>
      simp only [Bool.false_eq_true, if_false]
      exact evoFrom_runPass hnodup edges h

theorem buildNodeMap_go :
    ∀ (nodes acc : List AppNode),
      (((acc ++ nodes).map (fun n => n.id)).Nodup) →
      nodes.foldl
        (fun m n =>
          if m.any (fun o => o.id == n.id) then
            m.map (fun o => if o.id == n.id then n else o)
          else m ++ [n]) acc = acc ++ nodes := by
  intro nodes
  induction nodes with
  | nil => intro acc _; simp
  | cons n rest ih =>
    intro acc hnodup
    rw [List.foldl_cons]
    have hnotin : n.id ∉ acc.map (fun o => o.id) := by
      intro hc
      rw [List.map_append, List.nodup_append] at hnodup
      exact hnodup.2.2 hc (by simp)
    have hany : (acc.any (fun o => o.id == n.id)) = false := by
      rw [Bool.eq_false_iff]
      intro hc
      rw [List.any_eq_true] at hc
      obtain ⟨o, ho, hoid⟩ := hc
      rw [beq_iff_eq] at hoid
      exact hnotin (hoid ▸ List.mem_map_of_mem (fun o => o.id) ho)
    rw [hany]
    simp only [Bool.false_eq_true, if_false]
    have := ih (acc ++ [n]) (by simpa using hnodup)
    rw [this]
    simp

theorem buildNodeMap_eq_self {nodes : List AppNode}
    (h : (nodes.map (fun n => n.id)).Nodup) : buildNodeMap nodes = nodes := by
  have := buildNodeMap_go nodes [] (by simpa using h)
  simpa [buildNodeMap] using this

/-- Every `passStep` either leaves the accumulator unchanged or writes
a recomputed value for a non-Input node and raises the changed flag. -/
theorem passStep_cases (edges : List AppEdge) (acc : List AppNode × Bool) (nid : String) :
    passStep edges acc nid = acc ∨
    ∃ node, lookNode acc.1 nid = some node ∧ ¬ node.type = NodeType.input ∧
      jsStrictEq node.data.value (computeNode edges acc.1 node) = false ∧
      passStep edges acc nid = (setNodeValue acc.1 nid (computeNode edges acc.1 node), true) := by
  unfold passStep
  split
  · exact Or.inl rfl
  · rename_i node hl
    split
    · exact Or.inl rfl
    · rename_i hty
      split
      · exact Or.inl rfl
      · rename_i hje
        exact Or.inr ⟨node, hl, by simpa using hty, by simpa using hje, rfl⟩

theorem passStep_snd_false {edges : List AppEdge} {acc : List AppNode × Bool} {nid : String}
    (h : (passStep edges acc nid).2 = false) :
    passStep edges acc nid = acc ∧ acc.2 = false := by
  rcases passStep_cases edges acc nid with heq | ⟨node, _, _, _, heq⟩
  · rw [heq] at h
    exact ⟨heq, h⟩
  · rw [heq] at h
    simp at h

theorem foldl_pass_false {edges : List AppEdge} :
    ∀ (ids : List String) (acc : List AppNode × Bool),
      (ids.foldl (passStep edges) acc).2 = false →
      ids.foldl (passStep edges) acc = acc ∧ acc.2 = false := by
  intro ids
  induction ids with
  | nil => intro acc h; exact ⟨rfl, h⟩
  | cons i rest ih =>
    intro acc h
    rw [List.foldl_cons] at h ⊢
    obtain ⟨heq, hflag⟩ := ih _ h
    obtain ⟨heq2, hflag2⟩ := passStep_snd_false hflag
    exact ⟨by rw [heq, heq2], hflag2⟩

/-- A pass that reports no change leaves the map untouched. -/
theorem runPass_false {edges : List AppEdge} {m : List AppNode}
    (h : (runPass edges m).2 = false) : (runPass edges m).1 = m := by
  unfold runPass at h ⊢
  rw [(foldl_pass_false _ _ h).1]

/-- The loop executes at most `fuel` passes. -/
theorem calcLoop_count_le (edges : List AppEdge) :
    ∀ (fuel : Nat) (m : List AppNode), (calcLoop edges fuel m).2 ≤ fuel := by
  intro fuel
  induction fuel with
  | zero => intro m; simp [calcLoop]
  | succ f ih =>
    intro m
    simp only [calcLoop]
    cases hp : (runPass edges m).2 with
    | true =>
      simp only [if_pos rfl]
      exact Nat.succ_le_succ (ih _)
    | false =>
      simp only [Bool.false_eq_true, if_false]
      exact Nat.succ_le_succ (Nat.zero_le f)

/-- If a pass reports a change but returns the same map, the loop spins
on that map until the fuel is exhausted. -/
theorem calcLoop_const {edges : List AppEdge} {m : List AppNode}
    (h : runPass edges m = (m, true)) :
    ∀ fuel, calcLoop edges fuel m = (m, fuel) := by
  intro fuel
  induction fuel with
  | zero => rfl
  | succ f ih =>
    simp [calcLoop, h, ih]

/-- A loop whose first pass changes the map to a state on which the
second pass reports no change stops after exactly two passes. -/
theorem calcLoop_two {edges : List AppEdge} {m m1 : List AppNode}
    (h1 : runPass edges m = (m1, true)) (h2 : (runPass edges m1).2 = false) :
    ∀ fuel, calcLoop edges (fuel + 2) m = (m1, 2) := by
  intro fuel
  have hm1 : (runPass edges m1).1 = m1 := runPass_false h2
  show calcLoop edges (fuel + 1 + 1) m = (m1, 2)
  simp [calcLoop, h1, h2, hm1]

/-- Iterated evaluation passes (the successive states of the loop). -/
def gsIter (edges : List AppEdge) : Nat → List AppNode → List AppNode
  | 0, m => m
  | k + 1, m => gsIter edges k (runPass edges m).1

theorem gsIter_succ_back (edges : List AppEdge) :
    ∀ (k : Nat) (m : List AppNode),
      gsIter edges (k + 1) m = (runPass edges (gsIter edges k m)).1 := by
  intro k
  induction k with
  | zero => intro m; rfl
  | succ j ih =>
    intro m
    show gsIter edges (j + 1) ((runPass edges m).1) = _
    rw [ih]
    rfl

/-- If the state after `t` passes is stable (one more pass reports no
change), the loop stops within `t + 1` passes and its result is itself
stable. -/
theorem calcLoop_stable_bound (edges : List AppEdge) :
    ∀ (t : Nat) (m : List AppNode) (fuel : Nat), t < fuel →
      (runPass edges (gsIter edges t m)).2 = false →
      (calcLoop edges fuel m).2 ≤ t + 1 ∧
      runPass edges (calcLoop edges fuel m).1 = ((calcLoop edges fuel m).1, false) := by
  intro t
  induction t with
  | zero =>
    intro m fuel hlt hst
    obtain ⟨f, rfl⟩ : ∃ f, fuel = f + 1 := ⟨fuel - 1, by omega⟩
    have hst0 : (runPass edges m).2 = false := hst
    have hm : (runPass edges m).1 = m := runPass_false hst0
    refine ⟨?_, ?_⟩
    · simp [calcLoop, hst0]
    · have hres : (calcLoop edges (f + 1) m).1 = m := by
        simp [calcLoop, hst0, hm]
      rw [hres]
      exact Prod.ext hm hst0
  | succ t ih =>
    intro m fuel hlt hst
    obtain ⟨f, rfl⟩ : ∃ f, fuel = f + 1 := ⟨fuel - 1, by omega⟩
    cases hp : (runPass edges m).2 with
    | false =>
      have hm : (runPass edges m).1 = m := runPass_false hp
      refine ⟨?_, ?_⟩
      · simp [calcLoop, hp]
      · have hres : (calcLoop edges (f + 1) m).1 = m := by
          simp [calcLoop, hp, hm]
        rw [hres]
        exact Prod.ext hm hp
    | true =>
      have hst' : (runPass edges (gsIter edges t (runPass edges m).1)).2 = false := hst
      obtain ⟨hc, hs⟩ := ih (runPass edges m).1 f (by omega) hst'
      have hcount : (calcLoop edges (f + 1) m).2 = (calcLoop edges f (runPass edges m).1).2 + 1 := by
        simp [calcLoop, hp]
      have hres : (calcLoop edges (f + 1) m).1 = (calcLoop edges f (runPass edges m).1).1 := by
        simp [calcLoop, hp]
      refine ⟨?_, ?_⟩
      · rw [hcount]; omega
      · rw [hres]; exact hs

/-! ## Congruence of value resolution under agreeing states -/

theorem sameSkeleton_symm {a b : AppNode} (h : sameSkeleton a b) : sameSkeleton b a :=
  ⟨h.1.symm, h.2.1.symm, h.2.2.1.symm, h.2.2.2.1.symm, h.2.2.2.2.1.symm, h.2.2.2.2.2.symm⟩

theorem sameSkeleton_trans {a b c : AppNode} (h1 : sameSkeleton a b) (h2 : sameSkeleton b c) :
    sameSkeleton a c :=
  ⟨h1.1.trans h2.1, h1.2.1.trans h2.2.1, h1.2.2.1.trans h2.2.2.1, h1.2.2.2.1.trans h2.2.2.2.1,
   h1.2.2.2.2.1.trans h2.2.2.2.2.1, h1.2.2.2.2.2.trans h2.2.2.2.2.2⟩

theorem evoRel_trans {a b c : AppNode} (h1 : evoRel a b) (h2 : evoRel b c) : evoRel a c := by
  refine ⟨sameSkeleton_trans h1.1 h2.1, ?_⟩
  intro hin
  have hbt : b.type = NodeType.input := h1.1.2.1 ▸ hin
  exact (h2.2 hbt).trans (h1.2 hin)

theorem evoFrom_trans : ∀ {l1 l2 l3 : List AppNode}, EvoFrom l1 l2 → EvoFrom l2 l3 →
    EvoFrom l1 l3 := by
  intro l1 l2 l3 h1
  induction h1 generalizing l3 with
  | nil => intro h2; cases h2; exact List.Forall₂.nil
  | @cons a b t1 t2 hr ht ih =>
    intro h2
    cases h2 with
    | cons hr2 ht2 => exact List.Forall₂.cons (evoRel_trans hr hr2) (ih ht2)

theorem forall₂_mem_right {R : AppNode → AppNode → Prop} :
    ∀ {l l' : List AppNode}, List.Forall₂ R l l' → ∀ {b}, b ∈ l' → ∃ a ∈ l, R a b := by
  intro l l' h
  induction h with
  | nil => intro b hb; exact absurd hb (List.not_mem_nil b)
  | @cons x y t1 t2 hr ht ih =>
    intro b hb
    rcases List.mem_cons.mp hb with hby | hbt
    · exact ⟨x, List.mem_cons_self x t1, hby ▸ hr⟩
    · obtain ⟨a, ha, har⟩ := ih hbt
      exact ⟨a, List.mem_cons_of_mem x ha, har⟩

theorem lookNode_eq_none_iff {m : List AppNode} {nid : String} :
    lookNode m nid = none ↔ nid ∉ m.map (fun n => n.id) := by
  unfold lookNode
  rw [List.find?_eq_none]
  constructor
  · intro h hc
    obtain ⟨n, hn, hid⟩ := List.mem_map.mp hc
    exact (h n hn) (by simp [hid])
  · intro h n hn hc
    rw [beq_iff_eq] at hc
    exact h (hc ▸ List.mem_map_of_mem (fun n => n.id) hn)

theorem lookNode_of_mem_nodup {m : List AppNode} (hnodup : (m.map (fun n => n.id)).Nodup)
    {n : AppNode} (hn : n ∈ m) : lookNode m n.id = some n := by
  cases hl : lookNode m n.id with
  | none =>
    rw [lookNode_eq_none_iff] at hl
    exact absurd (List.mem_map_of_mem (fun n => n.id) hn) hl
  | some node => rw [eq_of_mem_of_nodup_id hnodup hl n hn rfl]

theorem getSourceValue_congr {edges : List AppEdge} {rank : String → Nat}
    (Hacyc : ∀ e ∈ edges, rank e.source < rank e.target)
    {m0 m m' : List AppNode} (hm : EvoFrom m0 m) (hm' : EvoFrom m0 m')
    {tgt : String}
    (hagree : ∀ nid2, rank nid2 < rank tgt → valAt m nid2 = valAt m' nid2)
    (h : Option String) :
    getSourceValue edges m tgt h = getSourceValue edges m' tgt h := by
  cases hfind : edges.find? (matchesTarget tgt h) with
  | none => simp only [getSourceValue, hfind]
  | some e =>
    have hmem : e ∈ edges := List.mem_of_find?_eq_some hfind
    have hmatch : matchesTarget tgt h e = true := List.find?_some hfind
    have htgt : e.target = tgt := by
      unfold matchesTarget at hmatch
      rw [Bool.and_eq_true] at hmatch
      simpa using hmatch.1
    have hrank : rank e.source < rank tgt := htgt ▸ Hacyc e hmem
    have h1 := lookNode_evo hm e.source
    have h2 := lookNode_evo hm' e.source
    simp only [getSourceValue, hfind]
    cases hl0 : lookNode m0 e.source with
    | none =>
      rw [hl0] at h1 h2
      cases hlm : lookNode m e.source with
      | some n => rw [hlm] at h1; cases h1
      | none =>
        cases hlm' : lookNode m' e.source with
        | some n => rw [hlm'] at h2; cases h2
        | none => simp only [hlm, hlm']
    | some n0 =>
      rw [hl0] at h1 h2
      cases hlm : lookNode m e.source with
      | none => rw [hlm] at h1; cases h1
      | some n =>
        cases hlm' : lookNode m' e.source with
        | none => rw [hlm'] at h2; cases h2
        | some n' =>
          rw [hlm] at h1
          rw [hlm'] at h2
          cases h1 with | some hrel =>
          cases h2 with | some hrel' =>
          simp only [hlm, hlm']
          have hty : n.type = n'.type := hrel.1.2.1.symm.trans hrel'.1.2.1
          by_cases hinp : n.type = NodeType.input
          · have hb1 : (n.type == NodeType.input) = true := by simp [hinp]
            have hb2 : (n'.type == NodeType.input) = true := by simp [← hty, hinp]
            rw [hb1, hb2]
            simp only [if_pos rfl]
            exact (hrel.1.2.2.2.2.1.symm.trans hrel'.1.2.2.2.2.1)
          · have hinp' : ¬ n'.type = NodeType.input := fun hc => hinp (hty ▸ hc)
            have hb1 : (n.type == NodeType.input) = false := by simp [hinp]
            have hb2 : (n'.type == NodeType.input) = false := by simp [hinp']
            rw [hb1, hb2]
            simp only [Bool.false_eq_true, if_false]
            have hv1 : valAt m e.source = n.data.value := valAt_eq_of_look hlm
            have hv2 : valAt m' e.source = n'.data.value := valAt_eq_of_look hlm'
            rw [← hv1, ← hv2]
            exact hagree e.source hrank

theorem computeNode_congr {edges : List AppEdge} {rank : String → Nat}
    (Hacyc : ∀ e ∈ edges, rank e.source < rank e.target)
    {m0 m m' : List AppNode} (hm : EvoFrom m0 m) (hm' : EvoFrom m0 m')
    {node node' : AppNode} (hs : sameSkeleton node node')
    (hagree : ∀ nid2, rank nid2 < rank node.id → valAt m nid2 = valAt m' nid2) :
    computeNode edges m node = computeNode edges m' node' := by
  have hid : node.id = node'.id := hs.1
  have hty : node.type = node'.type := hs.2.1
  have hop : node.data.operation = node'.data.operation := hs.2.2.2.2.2
  have hga := @getSourceValue_congr edges rank Hacyc m0 m m' hm hm' node.id hagree (some "a")
  have hgb := @getSourceValue_congr edges rank Hacyc m0 m m' hm hm' node.id hagree (some "b")
  have hgo := @getSourceValue_congr edges rank Hacyc m0 m m' hm hm' node.id hagree none
  unfold computeNode
  rw [← hid, ← hty, ← hop, hga, hgb, hgo]

/-! ## Stabilisation of the Jacobi reference iteration -/

theorem evoFrom_jacobiPass (edges : List AppEdge) (m : List AppNode) :
    EvoFrom m (jacobiPass edges m) := by
  unfold jacobiPass
  apply evoFrom_map_mem (evoFrom_refl m)
  intro a b hb hr
  cases hbt : (b.type == NodeType.input) with
  | true => simpa [hbt] using hr
  | false =>
    have : ¬ b.type = NodeType.input := by simpa using hbt
    simpa [hbt] using evoRel_update hr this _

theorem evoFrom_jacobiIter (edges : List AppEdge) (m : List AppNode) :
    ∀ k, EvoFrom m (jacobiIter edges k m) := by
  intro k
  induction k with
  | zero => exact evoFrom_refl m
  | succ j ih => exact evoFrom_trans ih (evoFrom_jacobiPass edges _)

theorem lookNode_jacobiPass (edges : List AppEdge) (m : List AppNode) (nid : String) :
    lookNode (jacobiPass edges m) nid = (lookNode m nid).map
      (fun n => if n.type == NodeType.input then n
                else { n with data := { n.data with value := computeNode edges m n } }) := by
  unfold jacobiPass
  apply lookNode_map_of_id
  intro n
  cases h : (n.type == NodeType.input) with
  | true => simp [h]
  | false => simp [h]

theorem valAt_jacobiPass_noninput {edges : List AppEdge} {m : List AppNode} {nid : String}
    {node : AppNode} (hl : lookNode m nid = some node) (ht : ¬ node.type = NodeType.input) :
    valAt (jacobiPass edges m) nid = computeNode edges m node := by
  unfold valAt
  rw [lookNode_jacobiPass, hl]
  simp [ht]

theorem valAt_jacobiPass_input {edges : List AppEdge} {m : List AppNode} {nid : String}
    {node : AppNode} (hl : lookNode m nid = some node) (ht : node.type = NodeType.input) :
    valAt (jacobiPass edges m) nid = node.data.value := by
  unfold valAt
  rw [lookNode_jacobiPass, hl]
  simp [ht]

/-- Below rank `k`, the `(k+1)`-st Jacobi state agrees with the `k`-th. -/
theorem jacobi_adjacent {edges : List AppEdge} {rank : String → Nat}
    (Hacyc : ∀ e ∈ edges, rank e.source < rank e.target) (m0 : List AppNode) :
    ∀ k, ∀ nid, rank nid < k →
      valAt (jacobiIter edges (k + 1) m0) nid = valAt (jacobiIter edges k m0) nid := by
  intro k
  induction k with
  | zero => intro nid hr; exact absurd hr (Nat.not_lt_zero _)
  | succ k ih =>
    intro nid hr
    have hrel : Option.Rel evoRel (lookNode (jacobiIter edges k m0) nid)
        (lookNode (jacobiIter edges (k + 1) m0) nid) :=
      lookNode_evo (evoFrom_jacobiPass edges (jacobiIter edges k m0)) nid
    show valAt (jacobiPass edges (jacobiIter edges (k + 1) m0)) nid
        = valAt (jacobiPass edges (jacobiIter edges k m0)) nid
    cases hlk : lookNode (jacobiIter edges k m0) nid with
    | none =>
      rw [hlk] at hrel
      cases hlk1 : lookNode (jacobiIter edges (k + 1) m0) nid with
      | some n => rw [hlk1] at hrel; cases hrel
      | none =>
        have e1 : valAt (jacobiPass edges (jacobiIter edges (k + 1) m0)) nid = none := by
          unfold valAt
          rw [lookNode_jacobiPass, hlk1]
          rfl
        have e2 : valAt (jacobiPass edges (jacobiIter edges k m0)) nid = none := by
          unfold valAt
          rw [lookNode_jacobiPass, hlk]
          rfl
        rw [e1, e2]
    | some n' =>
      rw [hlk] at hrel
      cases hlk1 : lookNode (jacobiIter edges (k + 1) m0) nid with
      | none => rw [hlk1] at hrel; cases hrel
      | some n =>
        rw [hlk1] at hrel
        cases hrel with | some hr2 =>
        by_cases hin : n'.type = NodeType.input
        · have hin1 : n.type = NodeType.input := hr2.1.2.1 ▸ hin
          rw [valAt_jacobiPass_input hlk1 hin1, valAt_jacobiPass_input hlk hin]
          exact hr2.2 hin
        · have hin1 : ¬ n.type = NodeType.input := fun hc => hin (hr2.1.2.1 ▸ hc)
          rw [valAt_jacobiPass_noninput hlk1 hin1, valAt_jacobiPass_noninput hlk hin]
          have hid : n.id = nid := (lookNode_mem hlk1).2
          have hidr : rank n.id < k + 1 := by rw [hid]; exact hr
          apply computeNode_congr Hacyc
            (evoFrom_jacobiPass edges (jacobiIter edges k m0))
            (evoFrom_refl (jacobiIter edges k m0))
            (sameSkeleton_symm hr2.1)
          intro nid2 hr2rank
          exact ih nid2 (by omega)

/-- Below rank `k`, every later Jacobi state agrees with the `k`-th. -/
theorem jacobi_stable_from {edges : List AppEdge} {rank : String → Nat}
    (Hacyc : ∀ e ∈ edges, rank e.source < rank e.target) (m0 : List AppNode) :
    ∀ (k j : Nat), k ≤ j → ∀ nid, rank nid < k →
      valAt (jacobiIter edges j m0) nid = valAt (jacobiIter edges k m0) nid := by
  intro k j
  induction j with
  | zero =>
    intro hkj nid hr
    have : k = 0 := Nat.le_zero.mp hkj
    rw [this]
  | succ j ih =>
    intro hkj nid hr
    rcases Nat.lt_or_ge j (k : Nat) with hjk | hjk
    · have : k = j + 1 := by omega
      rw [this]
    · calc valAt (jacobiIter edges (j + 1) m0) nid
          = valAt (jacobiIter edges j m0) nid :=
            jacobi_adjacent Hacyc m0 j nid (by omega)
        _ = valAt (jacobiIter edges k m0) nid := ih hjk nid hr

/-- The `B`-th Jacobi state is a fixed point: recomputing any non-Input
node of it yields its stored value. -/
theorem jacobi_fixed_point {edges : List AppEdge} {rank : String → Nat}
    (Hacyc : ∀ e ∈ edges, rank e.source < rank e.target)
    {m0 : List AppNode} (hnodup : (m0.map (fun n => n.id)).Nodup)
    {B : Nat} (hB : ∀ n ∈ m0, rank n.id < B) :
    ∀ {n : AppNode}, n ∈ jacobiIter edges B m0 → ¬ n.type = NodeType.input →
      computeNode edges (jacobiIter edges B m0) n = n.data.value := by
  intro n hn ht
  have hEF : EvoFrom m0 (jacobiIter edges B m0) := evoFrom_jacobiIter edges m0 B
  have hnodupF : ((jacobiIter edges B m0).map (fun n => n.id)).Nodup :=
    evoFrom_ids hEF ▸ hnodup
  have hlF : lookNode (jacobiIter edges B m0) n.id = some n := lookNode_of_mem_nodup hnodupF hn
  obtain ⟨n0, hn0, hrel⟩ := forall₂_mem_right hEF hn
  have hrank : rank n.id < B := hrel.1.1 ▸ hB n0 hn0
  have h1 : valAt (jacobiPass edges (jacobiIter edges B m0)) n.id
      = computeNode edges (jacobiIter edges B m0) n :=
    valAt_jacobiPass_noninput hlF ht
  have h3 : valAt (jacobiIter edges (B + 1) m0) n.id = valAt (jacobiIter edges B m0) n.id :=
    jacobi_stable_from Hacyc m0 B (B + 1) (Nat.le_succ B) n.id hrank
  have h4 : valAt (jacobiIter edges (B + 1) m0) n.id
      = computeNode edges (jacobiIter edges B m0) n := h1
  rw [h3, valAt_eq_of_look hlF] at h4
  exact h4.symm

/-- Recomputing a node in a state that agrees with the stable Jacobi
state below the node's rank yields the node's stable value. -/
theorem compute_eq_final {edges : List AppEdge} {rank : String → Nat}
    (Hacyc : ∀ e ∈ edges, rank e.source < rank e.target)
    {m0 : List AppNode} (hnodup : (m0.map (fun n => n.id)).Nodup)
    {B : Nat} (hB : ∀ n ∈ m0, rank n.id < B)
    {m : List AppNode} (hm : EvoFrom m0 m) {nid : String} {node : AppNode}
    (hl : lookNode m nid = some node) (ht : ¬ node.type = NodeType.input)
    (hagree : ∀ nid2, rank nid2 < rank nid →
      valAt m nid2 = valAt (jacobiIter edges B m0) nid2) :
    computeNode edges m node = valAt (jacobiIter edges B m0) nid := by
  have hF : EvoFrom m0 (jacobiIter edges B m0) := evoFrom_jacobiIter edges m0 B
  have hid : node.id = nid := (lookNode_mem hl).2
  have h1 := lookNode_evo hm nid
  have h2 := lookNode_evo hF nid
  rw [hl] at h1
  cases hl0 : lookNode m0 nid with
  | none => rw [hl0] at h1; cases h1
  | some n0 =>
    rw [hl0] at h1 h2
    cases h1 with | some hrel =>
    cases hlF : lookNode (jacobiIter edges B m0) nid with
    | none => rw [hlF] at h2; cases h2
    | some nf =>
      rw [hlF] at h2
      cases h2 with | some hrelF =>
      have hskel : sameSkeleton node nf :=
        sameSkeleton_trans (sameSkeleton_symm hrel.1) hrelF.1
      have htf : ¬ nf.type = NodeType.input := fun hc => ht (hskel.2.1 ▸ hc)
      have hcongr : computeNode edges m node
          = computeNode edges (jacobiIter edges B m0) nf := by
        apply computeNode_congr Hacyc hm hF hskel
        intro nid2 hr2
        exact hagree nid2 (hid ▸ hr2)
      rw [hcongr]
      rw [jacobi_fixed_point Hacyc hnodup hB (List.mem_of_find?_eq_some hlF) htf]
      exact (valAt_eq_of_look hlF).symm

/-- Exhaustive case analysis of one `passStep`, naming the reason when
the accumulator is left unchanged. -/
theorem passStep_cases_full (edges : List AppEdge) (acc : List AppNode × Bool) (nid : String) :
    (lookNode acc.1 nid = none ∧ passStep edges acc nid = acc) ∨
    (∃ node, lookNode acc.1 nid = some node ∧ node.type = NodeType.input ∧
      passStep edges acc nid = acc) ∨
    (∃ node, lookNode acc.1 nid = some node ∧ ¬ node.type = NodeType.input ∧
      jsStrictEq node.data.value (computeNode edges acc.1 node) = true ∧
      passStep edges acc nid = acc) ∨
    (∃ node, lookNode acc.1 nid = some node ∧ ¬ node.type = NodeType.input ∧
      jsStrictEq node.data.value (computeNode edges acc.1 node) = false ∧
      passStep edges acc nid = (setNodeValue acc.1 nid (computeNode edges acc.1 node), true)) := by
  unfold passStep
  split
  · rename_i hl
    exact Or.inl ⟨hl, rfl⟩
  · rename_i node hl
    split
    · rename_i hty
      exact Or.inr (Or.inl ⟨node, hl, by simpa using hty, rfl⟩)
    · rename_i hty
      split
      · rename_i hje
        exact Or.inr (Or.inr (Or.inl ⟨node, hl, by simpa using hty, by simpa using hje, rfl⟩))
      · rename_i hje
        exact Or.inr (Or.inr (Or.inr ⟨node, hl, by simpa using hty, by simpa using hje, rfl⟩))

/-- Fold invariant for one evaluation pass: nodes below rank `k` stay
at their stable values, and every processed node of rank at most `k`
ends at its stable value. -/
theorem gs_fold_invariant {edges : List AppEdge} {rank : String → Nat}
    (Hacyc : ∀ e ∈ edges, rank e.source < rank e.target)
    {m0 : List AppNode} (hnodup : (m0.map (fun n => n.id)).Nodup)
    {B : Nat} (hB : ∀ n ∈ m0, rank n.id < B) (k : Nat) :
    ∀ (todo : List String) (acc : List AppNode × Bool),
      EvoFrom m0 acc.1 →
      (∀ nid, rank nid < k → valAt acc.1 nid = valAt (jacobiIter edges B m0) nid) →
      (∀ nid, rank nid < k + 1 → nid ∉ todo →
        valAt acc.1 nid = valAt (jacobiIter edges B m0) nid) →
      EvoFrom m0 (todo.foldl (passStep edges) acc).1 ∧
      (∀ nid, rank nid < k + 1 →
        valAt (todo.foldl (passStep edges) acc).1 nid = valAt (jacobiIter edges B m0) nid) := by
  intro todo
  induction todo with
  | nil =>
    intro acc hE hA hQ
    exact ⟨hE, fun nid hr => hQ nid hr (List.not_mem_nil nid)⟩
  | cons i rest ih =>
    intro acc hE hA hQ
    rw [List.foldl_cons]
    have hE' : EvoFrom m0 (passStep edges acc i).1 := evoFrom_passStep hnodup edges hE i
    -- the value of node i after this step equals its stable value, when ranked at most k
    have hstep_i : rank i < k + 1 → valAt (passStep edges acc i).1 i
        = valAt (jacobiIter edges B m0) i := by
      intro hri
      rcases passStep_cases_full edges acc i with
        ⟨hl, heq⟩ | ⟨node, hl, hty, heq⟩ | ⟨node, hl, hty, hje, heq⟩ | ⟨node, hl, hty, hje, heq⟩
      · rw [heq]
        rw [valAt_eq_none_of_look hl]
        rw [lookNode_eq_none_iff] at hl
        rw [← evoFrom_ids hE] at hl
        have hlF : lookNode (jacobiIter edges B m0) i = none := by
          rw [lookNode_eq_none_iff, ← evoFrom_ids (evoFrom_jacobiIter edges m0 B)]
          exact hl
        rw [valAt_eq_none_of_look hlF]
      · rw [heq]
        have h1 := lookNode_evo hE i
        have h2 := lookNode_evo (evoFrom_jacobiIter edges m0 B) i
        rw [hl] at h1
        cases hl0 : lookNode m0 i with
        | none => rw [hl0] at h1; cases h1
        | some n0 =>
          rw [hl0] at h1 h2
          cases h1 with | some hrel =>
          cases hlF : lookNode (jacobiIter edges B m0) i with
          | none => rw [hlF] at h2; cases h2
          | some nf =>
            rw [hlF] at h2
            cases h2 with | some hrelF =>
            have hn0in : n0.type = NodeType.input := hrel.1.2.1.symm ▸ hty
            rw [valAt_eq_of_look hl, valAt_eq_of_look hlF]
            rw [hrel.2 hn0in, hrelF.2 hn0in]
      · rw [heq]
        rw [valAt_eq_of_look hl]
        rw [jsStrictEq_eq hje]
        apply compute_eq_final Hacyc hnodup hB hE hl hty
        intro nid2 hr2
        have hidn : node.id = i := (lookNode_mem hl).2
        exact hA nid2 (by omega)
      · rw [heq]
        show valAt (setNodeValue acc.1 i (computeNode edges acc.1 node)) i = _
        rw [valAt_setNodeValue_self hl]
        apply compute_eq_final Hacyc hnodup hB hE hl hty
        intro nid2 hr2
        have hidn : node.id = i := (lookNode_mem hl).2
        exact hA nid2 (by omega)
    -- values of other nodes are untouched by this step
    have hstep_other : ∀ nid, nid ≠ i →
        valAt (passStep edges acc i).1 nid = valAt acc.1 nid := by
      intro nid hne
      rcases passStep_cases_full edges acc i with
        ⟨_, heq⟩ | ⟨node, _, _, heq⟩ | ⟨node, _, _, _, heq⟩ | ⟨node, _, _, _, heq⟩
      · rw [heq]
      · rw [heq]
      · rw [heq]
      · rw [heq]
        exact valAt_setNodeValue_ne hne _
    apply ih (passStep edges acc i)
    · exact hE'
    · intro nid hr
      by_cases hni : nid = i
      · subst hni
        exact hstep_i (by omega)
      · rw [hstep_other nid hni]
        exact hA nid hr
    · intro nid hr hmem
      by_cases hni : nid = i
      · subst hni
        exact hstep_i hr
      · rw [hstep_other nid hni]
        exact hQ nid hr (by simp [hni, hmem])

/-- After `k` evaluation passes, every node below rank `k` carries its
stable value, and the state is a legal evolution of the input. -/
theorem gs_invariant {edges : List AppEdge} {rank : String → Nat}
    (Hacyc : ∀ e ∈ edges, rank e.source < rank e.target)
    {m0 : List AppNode} (hnodup : (m0.map (fun n => n.id)).Nodup)
    {B : Nat} (hB : ∀ n ∈ m0, rank n.id < B) :
    ∀ k, EvoFrom m0 (gsIter edges k m0) ∧
      (∀ nid, rank nid < k →
        valAt (gsIter edges k m0) nid = valAt (jacobiIter edges B m0) nid) := by
  intro k
  induction k with
  | zero => exact ⟨evoFrom_refl m0, fun nid hr => absurd hr (Nat.not_lt_zero _)⟩
  | succ k ih =>
    obtain ⟨hE, hA⟩ := ih
    rw [gsIter_succ_back]
    have hQ0 : ∀ nid, rank nid < k + 1 →
        nid ∉ (gsIter edges k m0).map (fun n => n.id) →
        valAt (gsIter edges k m0) nid = valAt (jacobiIter edges B m0) nid := by
      intro nid _ hnm
      rw [valAt_eq_none_of_look (lookNode_eq_none_iff.mpr hnm)]
      have hnm0 : nid ∉ m0.map (fun n => n.id) := by
        rw [evoFrom_ids hE]
        exact hnm
      have hnF : nid ∉ (jacobiIter edges B m0).map (fun n => n.id) := by
        rw [← evoFrom_ids (evoFrom_jacobiIter edges m0 B)]
        exact hnm0
      rw [valAt_eq_none_of_look (lookNode_eq_none_iff.mpr hnF)]
    exact gs_fold_invariant Hacyc hnodup hB k ((gsIter edges k m0).map (fun n => n.id))
      (gsIter edges k m0, false) hE hA hQ0

/-- A pass over the stable state reports no change, provided no stable
computed value is the NaN sentinel. -/
theorem runPass_final_stable {edges : List AppEdge} {rank : String → Nat}
    (Hacyc : ∀ e ∈ edges, rank e.source < rank e.target)
    {m0 : List AppNode} (hnodup : (m0.map (fun n => n.id)).Nodup)
    {B : Nat} (hB : ∀ n ∈ m0, rank n.id < B)
    (HnoNaN : ∀ n ∈ jacobiIter edges B m0, ¬ n.type = NodeType.input →
      n.data.value ≠ some JSVal.nan) :
    runPass edges (jacobiIter edges B m0) = (jacobiIter edges B m0, false) := by
  have key : ∀ (todo : List String),
      todo.foldl (passStep edges) (jacobiIter edges B m0, false)
        = (jacobiIter edges B m0, false) := by
    intro todo
    induction todo with
    | nil => rfl
    | cons i rest ihr =>
      rw [List.foldl_cons]
      have hstep : passStep edges (jacobiIter edges B m0, false) i
          = (jacobiIter edges B m0, false) := by
        rcases passStep_cases_full edges (jacobiIter edges B m0, false) i with
          ⟨_, heq⟩ | ⟨node, _, _, heq⟩ | ⟨node, _, _, _, heq⟩ | ⟨node, hl, hty, hje, heq⟩
        · exact heq
        · exact heq
        · exact heq
        · exfalso
          have hmem := (lookNode_mem hl).1
          have hcv := jacobi_fixed_point Hacyc hnodup hB hmem hty
          rw [hcv] at hje
          rw [jsStrictEq_self (HnoNaN node hmem hty)] at hje
          simp at hje
      rw [hstep]
      exact ihr
  unfold runPass
  exact key _

theorem valAt_cons_self (x : AppNode) (t : List AppNode) :
    valAt (x :: t) x.id = x.data.value := by
  unfold valAt lookNode
  simp [List.find?_cons]

theorem valAt_cons_ne {x : AppNode} {t : List AppNode} {nid : String} (h : nid ≠ x.id) :
    valAt (x :: t) nid = valAt t nid := by
  unfold valAt lookNode
  rw [List.find?_cons]
  have hb : (x.id == nid) = false := by
    simp only [beq_eq_false_iff_ne, ne_eq]
    exact fun hc => h hc.symm
  rw [hb]

theorem appNode_ext {x y : AppNode} (h1 : x.id = y.id) (h2 : x.type = y.type)
    (h3 : x.position = y.position) (h4 : x.data.label = y.data.label)
    (h5 : x.data.value = y.data.value) (h6 : x.data.inputValue = y.data.inputValue)
    (h7 : x.data.operation = y.data.operation) : x = y := by
  cases x with | mk xi xt xp xd =>
  cases y with | mk yi yt yp yd =>
  cases xd
  cases yd
  simp only at h1 h2 h3 h4 h5 h6 h7
  simp [h1, h2, h3, h4, h5, h6, h7]

/-- Two evolutions of the same duplicate-free collection with the same
values everywhere are the same list. -/
theorem eq_of_evoFrom_of_valAt :
    ∀ {m0 a b : List AppNode}, (m0.map (fun n => n.id)).Nodup →
      EvoFrom m0 a → EvoFrom m0 b →
      (∀ nid, valAt a nid = valAt b nid) → a = b := by
  intro m0
  induction m0 with
  | nil =>
    intro a b _ ha hb _
    cases ha
    cases hb
    rfl
  | cons n0 t0 ih =>
    intro a b hnodup ha hb hv
    simp only [List.map_cons, List.nodup_cons] at hnodup
    cases ha with | @cons _ x _ ta hra hta =>
    cases hb with | @cons _ y _ tb hrb htb =>
    have hxy_id : x.id = y.id := hra.1.1.symm.trans hrb.1.1
    have hx_val : valAt (x :: ta) x.id = x.data.value := valAt_cons_self x ta
    have hy_val : valAt (y :: tb) x.id = y.data.value := by
      rw [hxy_id]
      exact valAt_cons_self y tb
    have hval : x.data.value = y.data.value := by
      rw [← hx_val, ← hy_val]
      exact hv x.id
    have hxy : x = y :=
      appNode_ext hxy_id (hra.1.2.1.symm.trans hrb.1.2.1)
        (hra.1.2.2.1.symm.trans hrb.1.2.2.1) (hra.1.2.2.2.1.symm.trans hrb.1.2.2.2.1)
        hval (hra.1.2.2.2.2.1.symm.trans hrb.1.2.2.2.2.1)
        (hra.1.2.2.2.2.2.symm.trans hrb.1.2.2.2.2.2)
    have htails : ta = tb := by
      apply ih hnodup.2 hta htb
      intro nid
      by_cases hni : nid = x.id
      · have hta_none : lookNode ta nid = none := by
          rw [lookNode_eq_none_iff, ← evoFrom_ids hta]
          rw [hni, ← hra.1.1]
          exact hnodup.1
        have htb_none : lookNode tb nid = none := by
          rw [lookNode_eq_none_iff, ← evoFrom_ids htb]
          rw [hni, ← hra.1.1]
          exact hnodup.1
        rw [valAt_eq_none_of_look hta_none, valAt_eq_none_of_look htb_none]
      · have h1 : valAt ta nid = valAt (x :: ta) nid := (valAt_cons_ne hni).symm
        have h2 : valAt tb nid = valAt (y :: tb) nid :=
          (valAt_cons_ne (hxy_id ▸ hni)).symm
        rw [h1, h2]
        exact hv nid
    rw [hxy, htails]

/-- The evaluation states coincide with the stable Jacobi state after
`B` passes. -/
theorem gsIter_eq_jacobi {edges : List AppEdge} {rank : String → Nat}
    (Hacyc : ∀ e ∈ edges, rank e.source < rank e.target)
    {m0 : List AppNode} (hnodup : (m0.map (fun n => n.id)).Nodup)
    {B : Nat} (hB : ∀ n ∈ m0, rank n.id < B) :
    gsIter edges B m0 = jacobiIter edges B m0 := by
  obtain ⟨hE, hA⟩ := gs_invariant Hacyc hnodup hB B
  apply eq_of_evoFrom_of_valAt hnodup hE (evoFrom_jacobiIter edges m0 B)
  intro nid
  by_cases hin : nid ∈ m0.map (fun n => n.id)
  · obtain ⟨n0, hn0, rfl⟩ := List.mem_map.mp hin
    exact hA n0.id (hB n0 hn0)
  · have h1 : lookNode (gsIter edges B m0) nid = none := by
      rw [lookNode_eq_none_iff, ← evoFrom_ids hE]
      exact hin
    have h2 : lookNode (jacobiIter edges B m0) nid = none := by
      rw [lookNode_eq_none_iff, ← evoFrom_ids (evoFrom_jacobiIter edges m0 B)]
      exact hin
    rw [valAt_eq_none_of_look h1, valAt_eq_none_of_look h2]

/-- Master convergence result: with a topological ranking below `B`,
no NaN among the stable computed values, and `B + 1` within the 50-pass
ceiling, the evaluator stops within `B + 1` passes at a state on which
a further pass reports no change. -/
theorem calc_convergence {edges : List AppEdge} {rank : String → Nat}
    {nodes : List AppNode}
    (hnodup : (nodes.map (fun n => n.id)).Nodup)
    (Hacyc : ∀ e ∈ edges, rank e.source < rank e.target)
    {B : Nat} (hB : ∀ n ∈ nodes, rank n.id < B) (hceil : B + 1 ≤ 50)
    (HnoNaN : ∀ n ∈ jacobiIter edges B nodes, ¬ n.type = NodeType.input →
      n.data.value ≠ some JSVal.nan) :
    calcPassCount nodes edges ≤ B + 1 ∧
    runPass edges (calculateGraph nodes edges) = (calculateGraph nodes edges, false) := by
  have hbuild : buildNodeMap nodes = nodes := buildNodeMap_eq_self hnodup
  have hgs : gsIter edges B nodes = jacobiIter edges B nodes :=
    gsIter_eq_jacobi Hacyc hnodup hB
  have hstable : (runPass edges (gsIter edges B nodes)).2 = false := by
    rw [hgs, runPass_final_stable Hacyc hnodup hB HnoNaN]
  obtain ⟨hc, hs⟩ := calcLoop_stable_bound edges B nodes 50 (by omega) hstable
  unfold calcPassCount calculateGraph
  rw [hbuild]
  exact ⟨hc, hs⟩

/-! ## Unresolved values for disconnected nodes -/

theorem passStep_preserves_lookup {edges : List AppEdge} {acc : List AppNode × Bool}
    {nid' j : String} (hne : j ≠ nid') :
    lookNode (passStep edges acc nid').1 j = lookNode acc.1 j := by
  rcases passStep_cases_full edges acc nid' with
    ⟨_, heq⟩ | ⟨node, _, _, heq⟩ | ⟨node, _, _, _, heq⟩ | ⟨node, _, _, _, heq⟩
  · rw [heq]
  · rw [heq]
  · rw [heq]
  · rw [heq]
    exact lookNode_setNodeValue_ne hne _

theorem foldl_preserves_lookup {edges : List AppEdge} :
    ∀ (ids : List String) (acc : List AppNode × Bool) (j : String), j ∉ ids →
      lookNode ((ids.foldl (passStep edges) acc)).1 j = lookNode acc.1 j := by
  intro ids
  induction ids with
  | nil => intro acc j _; rfl
  | cons i rest ih =>
    intro acc j hj
    rw [List.foldl_cons]
    have hji : j ≠ i := fun hc => hj (hc ▸ List.mem_cons_self i rest)
    rw [ih _ j (fun hc => hj (List.mem_cons_of_mem i hc))]
    exact passStep_preserves_lookup hji

theorem computeNode_output_none {edges : List AppEdge} {m : List AppNode} {node : AppNode}
    (hty : node.type = NodeType.output)
    (hnoedge : ∀ e ∈ edges, (e.target == node.id) = false) :
    computeNode edges m node = none := by
  have hfind : edges.find? (matchesTarget node.id none) = none := by
    rw [List.find?_eq_none]
    intro e he hc
    unfold matchesTarget at hc
    rw [Bool.and_eq_true] at hc
    rw [hnoedge e he] at hc
    exact Bool.false_ne_true hc.1
  unfold computeNode
  have hmath : (node.type == NodeType.math) = false := by simp [hty]
  have hout : (node.type == NodeType.output) = true := by simp [hty]
  rw [hmath, hout]
  simp only [Bool.false_eq_true, if_false, if_pos rfl]
  unfold getSourceValue
  rw [hfind]
  simp

theorem output_step_none {edges : List AppEdge} {acc : List AppNode × Bool}
    {nid : String} {node : AppNode}
    (hl : lookNode acc.1 nid = some node) (hty : node.type = NodeType.output)
    (hnoedge : ∀ e ∈ edges, (e.target == nid) = false) :
    valAt (passStep edges acc nid).1 nid = none := by
  have hid : node.id = nid := (lookNode_mem hl).2
  have hcv : computeNode edges acc.1 node = none :=
    computeNode_output_none hty (by rw [hid]; exact hnoedge)
  rcases passStep_cases_full edges acc nid with
    ⟨hl2, heq⟩ | ⟨node2, hl2, hty2, heq⟩ | ⟨node2, hl2, hty2, hje, heq⟩ |
    ⟨node2, hl2, hty2, hje, heq⟩
  · rw [hl] at hl2; cases hl2
  · rw [hl] at hl2
    have : node = node2 := Option.some.inj hl2
    rw [← this] at hty2
    rw [hty] at hty2
    cases hty2
  · rw [heq]
    rw [hl] at hl2
    have hnn : node = node2 := Option.some.inj hl2
    rw [← hnn] at hje
    rw [hcv] at hje
    rw [valAt_eq_of_look hl]
    exact jsStrictEq_eq hje
  · rw [heq]
    rw [hl] at hl2
    have hnn : node = node2 := Option.some.inj hl2
    show valAt (setNodeValue acc.1 nid (computeNode edges acc.1 node2)) nid = none
    rw [valAt_setNodeValue_self hl]
    rw [← hnn, hcv]

theorem runPass_output_none {edges : List AppEdge} {m : List AppNode} {nid : String}
    {node : AppNode} (hnodup : (m.map (fun n => n.id)).Nodup)
    (hl : lookNode m nid = some node) (hty : node.type = NodeType.output)
    (hnoedge : ∀ e ∈ edges, (e.target == nid) = false) :
    valAt (runPass edges m).1 nid = none := by
  have hmem : nid ∈ m.map (fun n => n.id) := by
    have := (lookNode_mem hl)
    exact this.2 ▸ List.mem_map_of_mem (fun n => n.id) this.1
  obtain ⟨l1, l2, hsplit⟩ := List.append_of_mem hmem
  have hnodup_ids : (m.map (fun n => n.id)).Nodup := hnodup
  rw [hsplit] at hnodup_ids
  have hnin1 : nid ∉ l1 := by
    rw [List.nodup_append] at hnodup_ids
    exact fun hc => hnodup_ids.2.2 hc (List.mem_cons_self nid l2)
  have hnin2 : nid ∉ l2 := by
    rw [List.nodup_append] at hnodup_ids
    exact (List.nodup_cons.mp hnodup_ids.2.1).1
  unfold runPass
  rw [hsplit, List.foldl_append, List.foldl_cons]
  have hlook1 : lookNode (l1.foldl (passStep edges) (m, false)).1 nid = lookNode m nid :=
    foldl_preserves_lookup l1 (m, false) nid hnin1
  have hmid : valAt (passStep edges (l1.foldl (passStep edges) (m, false)) nid).1 nid = none :=
    output_step_none (hlook1.trans hl) hty hnoedge
  have hlook2 := @foldl_preserves_lookup edges l2
    (passStep edges (l1.foldl (passStep edges) (m, false)) nid) nid hnin2
  unfold valAt at hmid ⊢
  rw [hlook2]
  exact hmid

theorem calcLoop_output_none {edges : List AppEdge} :
    ∀ (fuel : Nat) {m : List AppNode} {nid : String} {node : AppNode}, 1 ≤ fuel →
      (m.map (fun n => n.id)).Nodup →
      lookNode m nid = some node → node.type = NodeType.output →
      (∀ e ∈ edges, (e.target == nid) = false) →
      valAt (calcLoop edges fuel m).1 nid = none := by
  intro fuel
  induction fuel with
  | zero => intro m nid node h; omega
  | succ f ih =>
    intro m nid node _ hnodup hl hty hnoedge
    have hpass : valAt (runPass edges m).1 nid = none :=
      runPass_output_none hnodup hl hty hnoedge
    have hEvo : EvoFrom m (runPass edges m).1 :=
      evoFrom_runPass hnodup edges (evoFrom_refl m)
    cases hp : (runPass edges m).2 with
    | false =>
      have hres : (calcLoop edges (f + 1) m).1 = (runPass edges m).1 := by
        simp [calcLoop, hp]
      rw [hres]
      exact hpass
    | true =>
      have hres : (calcLoop edges (f + 1) m).1 = (calcLoop edges f (runPass edges m).1).1 := by
        simp [calcLoop, hp]
      rw [hres]
      cases f with
      | zero => exact hpass
      | succ f' =>
        have hnodup' : ((runPass edges m).1.map (fun n => n.id)).Nodup :=
          evoFrom_ids hEvo ▸ hnodup
        have hrel := lookNode_evo hEvo nid
        rw [hl] at hrel
        cases hl' : lookNode (runPass edges m).1 nid with
        | none => rw [hl'] at hrel; cases hrel
        | some node' =>
          rw [hl'] at hrel
          cases hrel with | some hr2 =>
          exact ih (Nat.le_add_left 1 f') hnodup' hl' (hr2.1.2.1 ▸ hty) hnoedge

/-! ## History manager lemmas -/

theorem sliceLast20_length_le (l : List GraphSnapshot) : (sliceLast20 l).length ≤ 20 := by
  unfold sliceLast20
  rw [List.length_drop]
  omega

theorem getLast?_drop_of_lt {l : List GraphSnapshot} {n : Nat} (h : n < l.length) :
    (l.drop n).getLast? = l.getLast? := by
  conv_rhs => rw [← List.take_append_drop n l]
  rw [List.getLast?_append_of_ne_nil]
  apply List.ne_nil_of_length_pos
  rw [List.length_drop]
  omega

theorem snapshot_ext {a b : GraphSnapshot} (hn : a.nodes = b.nodes) (he : a.edges = b.edges) :
    a = b := by
  cases a
  cases b
  simp only at hn he
  simp [hn, he]

/-- Either branch of `takeSnapshot`. -/
theorem takeSnapshot_cases (current : GraphSnapshot) (h : History) :
    takeSnapshot current h = h ∨
    takeSnapshot current h = { past := sliceLast20 h.past ++ [current], future := [] } := by
  unfold takeSnapshot
  split
  · exact Or.inl rfl
  · exact Or.inr rfl

/-- `takeSnapshot` characterised: on a duplicate of the top of `past`
the history is returned unchanged; otherwise the current graph is
appended to the 20 most recent past entries and `future` is cleared. -/
theorem takeSnapshot_spec (current : GraphSnapshot) (h : History) :
    (h.past.getLast? = some current → takeSnapshot current h = h) ∧
    ((∀ x, h.past.getLast? = some x → x ≠ current) →
      takeSnapshot current h
        = { past := sliceLast20 h.past ++ [current], future := [] }) := by
  constructor
  · intro hlast
    unfold takeSnapshot
    rw [hlast]
    simp
  · intro hx
    unfold takeSnapshot
    cases hlast : h.past.getLast? with
    | none => simp
    | some last =>
      have hne : last ≠ current := hx last hlast
      have hdup : (last.nodes == current.nodes && last.edges == current.edges) = false := by
        rw [Bool.and_eq_false_iff]
        by_cases hn : last.nodes = current.nodes
        · right
          rw [beq_eq_false_iff_ne]
          intro he
          exact hne (snapshot_ext hn he)
        · left
          rw [beq_eq_false_iff_ne]
          exact hn
      simp [hdup]

/-- Sum bound across all history operations: `past` and `future`
together never exceed 21 entries. -/
theorem history_size_invariant :
    ∀ (ops : List HistOp) (s : FlowState),
      s.history.past.length + s.history.future.length ≤ 21 →
      (applyHistOps s ops).history.past.length
        + (applyHistOps s ops).history.future.length ≤ 21 := by
  intro ops
  induction ops with
  | nil => intro s h; exact h
  | cons op rest ih =>
    intro s h
    show (applyHistOps (applyHistOp s op) rest).history.past.length + _ ≤ 21
    apply ih
    cases op with
    | mutate g =>
      show (takeSnapshot s.graph s.history).past.length
        + (takeSnapshot s.graph s.history).future.length ≤ 21
      rcases takeSnapshot_cases s.graph s.history with heq | heq
      · rw [heq]
        exact h
      · rw [heq]
        simp only [List.length_append, List.length_nil, List.length_cons]
        have := sliceLast20_length_le s.history.past
        omega
    | undo =>
      show (undoState s).history.past.length + (undoState s).history.future.length ≤ 21
      unfold undoState
      by_cases hlen : s.history.past.length = 0
      · rw [if_pos hlen]
        exact h
      · rw [if_neg hlen]
        cases hlast : s.history.past.getLast? with
        | none => exact h
        | some str =>
          simp only [List.length_cons, List.length_dropLast]
          omega
    | redo =>
      show (redoState s).history.past.length + (redoState s).history.future.length ≤ 21
      unfold redoState
      by_cases hlen : s.history.future.length = 0
      · rw [if_pos hlen]
        exact h
      · rw [if_neg hlen]
        cases hf : s.history.future with
        | nil => exact h
        | cons str rest2 =>
          simp only [List.length_append, List.length_cons, List.length_nil]
          rw [hf] at h
          simp only [List.length_cons] at h
          omega

theorem applyHistOps_cons (s : FlowState) (op : HistOp) (ops : List HistOp) :
    applyHistOps s (op :: ops) = applyHistOps (applyHistOp s op) ops := rfl

theorem lastN21_snoc (L : List GraphSnapshot) (x : GraphSnapshot) :
    sliceLast20 (L.drop (L.length - 21)) ++ [x]
      = (L ++ [x]).drop ((L ++ [x]).length - 21) := by
  unfold sliceLast20
  rw [List.length_drop, List.drop_drop]
  rw [List.length_append]
  simp only [List.length_cons, List.length_nil]
  rw [List.drop_append_of_le_length (by omega)]
  congr 2
  omega

/-- Running a block of pairwise-distinct mutations: the `past` stack is
always the (at most 21 element) tail of the full sequence of
snapshotted states, `future` stays empty, and the live graph is the
last mutation. -/
theorem mutate_chain_run :
    ∀ (gs : List GraphSnapshot) (cur : GraphSnapshot) (H : List GraphSnapshot),
      List.Chain' (fun a b => a ≠ b) (cur :: gs) →
      (∀ x, H.getLast? = some x → x ≠ cur) →
      (applyHistOps ⟨cur, ⟨H.drop (H.length - 21), []⟩⟩ (gs.map HistOp.mutate)).history.past
          = (H ++ (cur :: gs).dropLast).drop ((H ++ (cur :: gs).dropLast).length - 21) ∧
      (applyHistOps ⟨cur, ⟨H.drop (H.length - 21), []⟩⟩ (gs.map HistOp.mutate)).history.future
          = [] ∧
      (applyHistOps ⟨cur, ⟨H.drop (H.length - 21), []⟩⟩ (gs.map HistOp.mutate)).graph
          = (cur :: gs).getLast (List.cons_ne_nil cur gs) := by
  intro gs
  induction gs with
  | nil =>
    intro cur H _ _
    refine ⟨?_, rfl, rfl⟩
    simp [applyHistOps]
  | cons g rest ih =>
    intro cur H hchain hlast
    have hpush : takeSnapshot cur ⟨H.drop (H.length - 21), []⟩
        = { past := sliceLast20 (H.drop (H.length - 21)) ++ [cur], future := [] } := by
      apply (takeSnapshot_spec cur _).2
      intro x hx
      cases hH : H with
      | nil =>
        rw [hH] at hx
        simp at hx
      | cons hh ht =>
        have hlen : H.length - 21 < H.length := by
          rw [hH]
          simp only [List.length_cons]
          omega
        rw [show (⟨H.drop (H.length - 21), []⟩ : History).past = H.drop (H.length - 21) from rfl,
          getLast?_drop_of_lt hlen] at hx
        exact hlast x hx
    rw [List.map_cons, applyHistOps_cons]
    have hstate : applyHistOp ⟨cur, ⟨H.drop (H.length - 21), []⟩⟩ (HistOp.mutate g)
        = ⟨g, ⟨(H ++ [cur]).drop ((H ++ [cur]).length - 21), []⟩⟩ := by
      show mutateState g _ = _
      unfold mutateState
      rw [hpush, lastN21_snoc]
    rw [hstate]
    obtain ⟨hcne, hchain'⟩ := List.chain'_cons.mp hchain
    have hlast' : ∀ x, (H ++ [cur]).getLast? = some x → x ≠ g := by
      intro x hx
      rw [List.getLast?_concat] at hx
      have : x = cur := (Option.some.inj hx).symm
      rw [this]
      exact hcne
    obtain ⟨h1, h2, h3⟩ := ih g (H ++ [cur]) hchain' hlast'
    have happ : (H ++ [cur]) ++ (g :: rest).dropLast = H ++ (cur :: g :: rest).dropLast := by
      rw [List.append_assoc]
      rfl
    refine ⟨?_, h2, ?_⟩
    · rw [h1, happ]
    · rw [h3]
      exact (List.getLast_cons (List.cons_ne_nil g rest)).symm

/-! ## Concrete graphs used by the claims -/

theorem calcLoop_one_then_const {edges : List AppEdge} {m m1 : List AppNode}
    (h1 : runPass edges m = (m1, true)) (h2 : runPass edges m1 = (m1, true)) (fuel : Nat) :
    calcLoop edges (fuel + 1) m = (m1, fuel + 1) := by
  simp [calcLoop, h1, calcLoop_const h2 fuel]

/-- The spec's divide-by-zero scenario: inputs `a` and `b` feed a
divide node `d`; `d` and the input 3 feed an add node `s`. -/
def divTaintNodes (a b : ℚ) : List AppNode :=
  [mkInput "x" a, mkInput "y" b, mkMath "d" MathOperation.divide,
   mkInput "z" 3, mkMath "s" MathOperation.add]

def divTaintEdges : List AppEdge :=
  [mkEdge "x" "d" (some "a"), mkEdge "y" "d" (some "b"),
   mkEdge "d" "s" (some "a"), mkEdge "z" "s" (some "b")]

/-- The stable values of the divide-by-zero scenario: both computed
nodes carry the NaN sentinel. -/
def divTaintStable (a b : ℚ) : List AppNode :=
  [mkInput "x" a, mkInput "y" b,
   { mkMath "d" MathOperation.divide with
       data := { operation := some MathOperation.divide, value := some JSVal.nan } },
   mkInput "z" 3,
   { mkMath "s" MathOperation.add with
       data := { operation := some MathOperation.add, value := some JSVal.nan } }]

set_option maxHeartbeats 2000000 in
theorem divTaint_pass1 (a : ℚ) :
    runPass divTaintEdges (buildNodeMap (divTaintNodes a 0)) = (divTaintStable a 0, true) := by
  simp [divTaintNodes, divTaintEdges, divTaintStable, runPass, passStep, buildNodeMap,
    lookNode, getSourceValue, computeNode, setNodeValue, matchesTarget, jsStrictEq, jsDiv,
    jsAdd, mkInput, mkMath, mkEdge, List.find?, List.foldl]

set_option maxHeartbeats 2000000 in
theorem divTaint_pass2 (a : ℚ) :
    runPass divTaintEdges (divTaintStable a 0) = (divTaintStable a 0, true) := by
  simp [divTaintEdges, divTaintStable, runPass, passStep, lookNode, getSourceValue,
    computeNode, setNodeValue, matchesTarget, jsStrictEq, jsDiv, jsAdd, mkInput, mkMath,
    mkEdge, List.find?, List.foldl]

theorem divTaint_result (a : ℚ) :
    calculateGraph (divTaintNodes a 0) divTaintEdges = divTaintStable a 0 ∧
    calcPassCount (divTaintNodes a 0) divTaintEdges = 50 := by
  have h := calcLoop_one_then_const (divTaint_pass1 a) (divTaint_pass2 a) 49
  unfold calculateGraph calcPassCount
  rw [h]
  exact ⟨rfl, rfl⟩

theorem divTaint_values (a : ℚ) :
    valAt (calculateGraph (divTaintNodes a 0) divTaintEdges) "d" = some JSVal.nan ∧
    valAt (calculateGraph (divTaintNodes a 0) divTaintEdges) "s" = some JSVal.nan := by
  rw [(divTaint_result a).1]
  constructor
  · simp [divTaintStable, valAt, lookNode, mkInput, mkMath, List.find?]
  · simp [divTaintStable, valAt, lookNode, mkInput, mkMath, List.find?]

/-- A plain division graph: inputs `a` and `b` feed a divide node. -/
def divNodes (a b : ℚ) : List AppNode :=
  [mkInput "x" a, mkInput "y" b, mkMath "d" MathOperation.divide]

def divEdges : List AppEdge :=
  [mkEdge "x" "d" (some "a"), mkEdge "y" "d" (some "b")]

def divStable (a b : ℚ) : List AppNode :=
  [mkInput "x" a, mkInput "y" b,
   { mkMath "d" MathOperation.divide with
       data := { operation := some MathOperation.divide, value := some (JSVal.num (a / b)) } }]

set_option maxHeartbeats 2000000 in
theorem div_pass1 (a b : ℚ) (hb : b ≠ 0) :
    runPass divEdges (buildNodeMap (divNodes a b)) = (divStable a b, true) := by
  simp [divNodes, divEdges, divStable, runPass, passStep, buildNodeMap, lookNode,
    getSourceValue, computeNode, setNodeValue, matchesTarget, jsStrictEq, jsDiv, mkInput,
    mkMath, mkEdge, List.find?, List.foldl, hb]

set_option maxHeartbeats 2000000 in
theorem div_pass2 (a b : ℚ) (hb : b ≠ 0) :
    (runPass divEdges (divStable a b)).2 = false := by
  simp [divEdges, divStable, runPass, passStep, lookNode, getSourceValue, computeNode,
    setNodeValue, matchesTarget, jsStrictEq, jsDiv, mkInput, mkMath, mkEdge, List.find?,
    List.foldl, hb]

theorem div_result (a b : ℚ) (hb : b ≠ 0) :
    valAt (calculateGraph (divNodes a b) divEdges) "d" = some (JSVal.num (a / b)) := by
  have h := calcLoop_two (div_pass1 a b hb) (div_pass2 a b hb) 48
  unfold calculateGraph
  rw [h]
  simp [divStable, valAt, lookNode, mkInput, mkMath, List.find?]

/-! ## Claim theorems -/

/-- The spec's worked example graph: Input 10 and Input 5 feed an add
node, which feeds an output. -/
def demoNodes : List AppNode :=
  [mkInput "1" 10, mkInput "2" 5, mkMath "3" MathOperation.add, mkOutput "4"]

def demoEdges : List AppEdge :=
  [mkEdge "1" "3" (some "a"), mkEdge "2" "3" (some "b"), mkEdge "3" "4" none]

/-- A topological rank for the demo graph. -/
def demoRank : String → Nat :=
  fun s => if s == "3" then 1 else if s == "4" then 2 else 0

/-- A topological rank for the divide-by-zero graph, witnessing that it
is acyclic. -/
def divTaintRank : String → Nat :=
  fun s => if s == "d" then 1 else if s == "s" then 2 else 0

/-- C1 (counterexample): the claim fails as stated.  The divide-by-zero
graph is finite and acyclic (it admits a topological rank), yet
`calculateGraph` executes all 50 passes and never reaches a pass in
which no value changes: one more pass on the returned state still
reports a change, because the NaN sentinel compares unequal to itself. -/
theorem C1_counterexample :
    (divTaintEdges.all fun e => decide (divTaintRank e.source < divTaintRank e.target)) = true ∧
    calcPassCount (divTaintNodes 4 0) divTaintEdges = 50 ∧
    (runPass divTaintEdges (calculateGraph (divTaintNodes 4 0) divTaintEdges)).2 = true := by
  refine ⟨by decide, (divTaint_result 4).2, ?_⟩
  rw [(divTaint_result 4).1, divTaint_pass2 4]

/-- C1 (amended): for every finite acyclic graph — presented with a
topological rank bounded by `B` — whose stable computed values exclude
the NaN sentinel and whose depth satisfies `B + 1 ≤ 50`, the evaluator
reaches a stable fixed point (a full pass changing no value) in at most
`B + 1` passes. -/
theorem C1_acyclic_convergence {edges : List AppEdge} {rank : String → Nat}
    {nodes : List AppNode}
    (hnodup : (nodes.map (fun n => n.id)).Nodup)
    (Hacyc : ∀ e ∈ edges, rank e.source < rank e.target)
    {B : Nat} (hB : ∀ n ∈ nodes, rank n.id < B) (hceil : B + 1 ≤ 50)
    (HnoNaN : ∀ n ∈ jacobiIter edges B nodes, ¬ n.type = NodeType.input →
      n.data.value ≠ some JSVal.nan) :
    calcPassCount nodes edges ≤ B + 1 ∧
    runPass edges (calculateGraph nodes edges) = (calculateGraph nodes edges, false) :=
  calc_convergence hnodup Hacyc hB hceil HnoNaN

/-- Witness for C1: the demo graph stabilises within 4 passes. -/
theorem C1_acyclic_convergence_witness :
    calcPassCount demoNodes demoEdges ≤ 4 ∧
    runPass demoEdges (calculateGraph demoNodes demoEdges)
      = (calculateGraph demoNodes demoEdges, false) :=
  @C1_acyclic_convergence demoEdges demoRank demoNodes
    (by decide) (by decide) 3 (by decide) (by decide) (by decide)

/-- C2 (counterexample): recomputing a node whose value is the NaN
sentinel as the sentinel again does count as a change
(`NaN !== NaN` is true in JS), so the divide-by-zero graph never
stabilises: the loop runs all 50 passes and exits by the iteration
ceiling, not because no value changed. -/
theorem C2_counterexample :
    jsStrictEq (some JSVal.nan) (some JSVal.nan) = false ∧
    calcPassCount (divTaintNodes 4 0) divTaintEdges = 50 ∧
    (runPass divTaintEdges (calculateGraph (divTaintNodes 4 0) divTaintEdges)).2 = true := by
  refine ⟨rfl, (divTaint_result 4).2, ?_⟩
  rw [(divTaint_result 4).1, divTaint_pass2 4]

/-- C2 (amended): the change detection uses JS strict inequality, under
which the NaN sentinel compares unequal to itself: every non-Input node
whose value is the sentinel and is recomputed as the sentinel raises
the changed flag, so a graph whose stable values include the sentinel
exits the loop only by the 50-pass ceiling; evaluation still terminates
and returns the stable sentinel values. -/
theorem C2_nan_counts_as_changed :
    (∀ (edges : List AppEdge) (m : List AppNode) (b : Bool) (nid : String) (node : AppNode),
      lookNode m nid = some node → ¬ node.type = NodeType.input →
      node.data.value = some JSVal.nan →
      computeNode edges m node = some JSVal.nan →
      (passStep edges (m, b) nid).2 = true) ∧
    calcPassCount (divTaintNodes 4 0) divTaintEdges = 50 ∧
    valAt (calculateGraph (divTaintNodes 4 0) divTaintEdges) "d" = some JSVal.nan := by
  refine ⟨?_, (divTaint_result 4).2, (divTaint_values 4).1⟩
  intro edges m b nid node hl hty hval hcv
  unfold passStep
  simp only [hl]
  have hbt : (node.type == NodeType.input) = false := by simpa using hty
  simp [hbt, hval, hcv, jsStrictEq_nan]

/-- Witness for C2: the divide node of the stable divide-by-zero state
is recomputed as NaN and still counts as changed. -/
theorem C2_nan_counts_as_changed_witness :
    (passStep divTaintEdges (divTaintStable 4 0, false) "d").2 = true ∧
    calcPassCount (divTaintNodes 4 0) divTaintEdges = 50 := by
  refine ⟨?_, C2_nan_counts_as_changed.2.1⟩
  apply C2_nan_counts_as_changed.1 divTaintEdges (divTaintStable 4 0) false "d"
    { mkMath "d" MathOperation.divide with
        data := { operation := some MathOperation.divide, value := some JSVal.nan } }
  · decide
  · decide
  · rfl
  · decide

/-- C5: an operator node with operation divide whose port `b` resolves
to 0 computes the NaN taint sentinel rather than raising an error; an
add node consuming that tainted value on one port and 3 on the other
also computes the sentinel, not 3; and divide with a nonzero `b`
computes `a / b`. -/
theorem C5_divide_taint (a b : ℚ) (hb : b ≠ 0) :
    valAt (calculateGraph (divTaintNodes a 0) divTaintEdges) "d" = some JSVal.nan ∧
    valAt (calculateGraph (divTaintNodes a 0) divTaintEdges) "s" = some JSVal.nan ∧
    valAt (calculateGraph (divTaintNodes a 0) divTaintEdges) "s" ≠ some (JSVal.num 3) ∧
    valAt (calculateGraph (divNodes a b) divEdges) "d" = some (JSVal.num (a / b)) := by
  refine ⟨(divTaint_values a).1, (divTaint_values a).2, ?_, div_result a b hb⟩
  rw [(divTaint_values a).2]
  simp

/-- Witness for C5 at `a = 4`, `b = 2`. -/
theorem C5_divide_taint_witness :
    (2 : ℚ) ≠ 0 ∧
    valAt (calculateGraph (divTaintNodes 4 0) divTaintEdges) "d" = some JSVal.nan ∧
    valAt (calculateGraph (divNodes 4 2) divEdges) "d" = some (JSVal.num (4 / 2)) := by
  have h2 : (2 : ℚ) ≠ 0 := by norm_num
  obtain ⟨hd, hs, hne, hq⟩ := C5_divide_taint 4 2 h2
  exact ⟨h2, hd, hq⟩

/-- A two-node directed cycle among Math nodes. -/
def cycNodes : List AppNode :=
  [mkMath "m1" MathOperation.add, mkMath "m2" MathOperation.add]

def cycEdges : List AppEdge :=
  [mkEdge "m1" "m2" (some "a"), mkEdge "m2" "m1" (some "a")]

/-- C7: `calculateGraph` executes at most 50 passes of its iteration
loop on every input — cyclic graphs included — and therefore always
returns; on the concrete two-node cycle it stops after a single pass. -/
theorem C7_pass_ceiling :
    (∀ (nodes : List AppNode) (edges : List AppEdge), calcPassCount nodes edges ≤ 50) ∧
    calcPassCount cycNodes cycEdges = 1 := by
  constructor
  · intro nodes edges
    exact calcLoop_count_le edges 50 (buildNodeMap nodes)
  · decide

/-- C10: `calculateGraph` rewrites only computed values: the output has
the same node ids in the same order, every node keeps its type,
position, label, `inputValue` and operation, and an Input node keeps
its `value` as well.  (In this embedding the arguments are immutable
values, so non-mutation of the inputs is intrinsic; what is proved is
the frame condition on the result.) -/
theorem C10_frame (nodes : List AppNode) (edges : List AppEdge)
    (hnodup : (nodes.map (fun n => n.id)).Nodup) :
    List.Forall₂ evoRel nodes (calculateGraph nodes edges) ∧
    (calculateGraph nodes edges).map (fun n => n.id) = nodes.map (fun n => n.id) := by
  have h0 : EvoFrom nodes (calculateGraph nodes edges) := by
    unfold calculateGraph
    rw [buildNodeMap_eq_self hnodup]
    exact evoFrom_calcLoop hnodup edges 50 (evoFrom_refl nodes)
  exact ⟨h0, (evoFrom_ids h0).symm⟩

/-- Witness for C10 on the demo graph. -/
theorem C10_frame_witness :
    List.Forall₂ evoRel demoNodes (calculateGraph demoNodes demoEdges) :=
  (C10_frame demoNodes demoEdges (by decide)).1

/-- The node object of the aliasing scenario: an Input node holding 10. -/
def refObj0 : NodeObj :=
  { id := "1", type := NodeType.input,
    data := { inputValue := some (JSVal.num 10) } }

/-- The aliasing scenario's initial app state: one live node, empty history. -/
def refDemo : RefState :=
  { heap := [(0, refObj0)], liveNodes := [0], pastNodes := [] }

/-- C3 (code evaluated at the failing input): `takeSnapshot` stores the
live `nodes` array by reference and `updateNodeValue` then mutates the
shared node object (`node.data = { ...node.data, inputValue: val }`),
so the snapshot archived *before* the mutation reads the *new* value:
after `updateNodeValue("1", 99)` the only archived snapshot dereferences
to `inputValue = 99`, no longer the 10 it held when archived.  The
claim that archived snapshots are isolated clones fails on the code. -/
theorem C3_snapshot_aliasing :
    (updateNodeValueRef "1" (JSVal.num 99) refDemo).pastNodes = [[0]] ∧
    derefNodes (updateNodeValueRef "1" (JSVal.num 99) refDemo).heap [0]
      = [some { refObj0 with data := { refObj0.data with inputValue := some (JSVal.num 99) } }] ∧
    derefNodes (updateNodeValueRef "1" (JSVal.num 99) refDemo).heap [0]
      ≠ derefNodes refDemo.heap [0] := by
  refine ⟨rfl, by decide, by decide⟩

/-- Two structurally distinct graph snapshots used as witnesses. -/
def snapA : GraphSnapshot := ⟨[], []⟩

def snapB : GraphSnapshot := ⟨[mkOutput "o"], []⟩

/-- C4 (counterexample): `future` is *not* cleared in every case: when
the current graph duplicates the top of `past`, `takeSnapshot` returns
the previous history unchanged, `future` included. -/
theorem C4_counterexample :
    (takeSnapshot snapA { past := [snapA], future := [snapB] }).future ≠ [] := by
  decide

/-- C4 (amended): the current graph is pushed onto `past` only if it
differs by value from the existing top; when it is pushed, `past`
becomes the previous 20 most recent entries plus the current graph
(hence at most 21 entries) and `future` is cleared; when the duplicate
check suppresses the push, the whole history — `future` included — is
returned unchanged. -/
theorem C4_takeSnapshot_spec (current : GraphSnapshot) (h : History) :
    (h.past.getLast? = some current → takeSnapshot current h = h) ∧
    ((∀ x, h.past.getLast? = some x → x ≠ current) →
      (takeSnapshot current h).past = sliceLast20 h.past ++ [current] ∧
      (takeSnapshot current h).future = [] ∧
      (takeSnapshot current h).past.length ≤ 21) := by
  refine ⟨(takeSnapshot_spec current h).1, ?_⟩
  intro hx
  rw [(takeSnapshot_spec current h).2 hx]
  refine ⟨rfl, rfl, ?_⟩
  simp only [List.length_append, List.length_cons, List.length_nil]
  have := sliceLast20_length_le h.past
  omega

/-- Witness for C4: a duplicate call leaves the history untouched and a
fresh call clears `future`. -/
theorem C4_takeSnapshot_spec_witness :
    takeSnapshot snapA { past := [snapA], future := [snapB] }
      = { past := [snapA], future := [snapB] } ∧
    (takeSnapshot snapB { past := [snapA], future := [snapB] }).future = [] := by
  constructor
  · exact (C4_takeSnapshot_spec snapA _).1 (by decide)
  · refine ((C4_takeSnapshot_spec snapB _).2 ?_).2.1
    intro x hx
    have hax : snapA = x := Option.some.inj hx
    rw [← hax]
    decide

/-- C6: value resolution yields unresolved (`undefined`), never a
default 0 and never an error, both when no matching inbound edge exists
and when the matching edge's source id is absent from the node
collection; consequently an Output node with no inbound edge still has
an unresolved computed value after evaluation. -/
theorem C6_unresolved :
    (∀ (edges : List AppEdge) (m : List AppNode) (tgt : String) (h : Option String),
      (∀ e ∈ edges, matchesTarget tgt h e = false) →
      getSourceValue edges m tgt h = none) ∧
    (∀ (edges : List AppEdge) (m : List AppNode) (tgt : String) (h : Option String)
      (e : AppEdge), edges.find? (matchesTarget tgt h) = some e →
      lookNode m e.source = none →
      getSourceValue edges m tgt h = none) ∧
    (∀ (nodes : List AppNode) (edges : List AppEdge) (o : AppNode),
      (nodes.map (fun n => n.id)).Nodup → o ∈ nodes → o.type = NodeType.output →
      (∀ e ∈ edges, e.target ≠ o.id) →
      valAt (calculateGraph nodes edges) o.id = none) := by
  refine ⟨?_, ?_, ?_⟩
  · intro edges m tgt h hmiss
    unfold getSourceValue
    rw [List.find?_eq_none.mpr (fun e he => by rw [hmiss e he]; exact Bool.false_ne_true)]
  · intro edges m tgt h e hfind hlook
    simp only [getSourceValue, hfind, hlook]
  · intro nodes edges o hnodup ho hty hnoedge
    unfold calculateGraph
    rw [buildNodeMap_eq_self hnodup]
    exact calcLoop_output_none 50 (by omega) hnodup (lookNode_of_mem_nodup hnodup ho) hty
      (fun e he => by simp [hnoedge e he])

/-- Witness for C6: an empty edge list, a dangling edge source, and a
disconnected Output node that starts with a stale value 15 and ends
unresolved. -/
theorem C6_unresolved_witness :
    getSourceValue [] [] "t" none = none ∧
    getSourceValue [mkEdge "ghost" "t" none] [] "t" none = none ∧
    valAt (calculateGraph
      [{ mkOutput "o" with data := { value := some (JSVal.num 15) } }] []) "o" = none := by
  refine ⟨?_, ?_, ?_⟩
  · exact C6_unresolved.1 [] [] "t" none (by decide)
  · exact C6_unresolved.2.1 [mkEdge "ghost" "t" none] [] "t" none
      (mkEdge "ghost" "t" none) (by decide) rfl
  · exact C6_unresolved.2.2
      [{ mkOutput "o" with data := { value := some (JSVal.num 15) } }] []
      { mkOutput "o" with data := { value := some (JSVal.num 15) } }
      (by decide) (by decide) (by decide) (by decide)

/-- After `takeSnapshot`, the top of `past` is the snapshotted graph,
and `future` is empty whenever it was empty before the call. -/
theorem takeSnapshot_last (current : GraphSnapshot) (h : History) :
    (takeSnapshot current h).past.getLast? = some current ∧
    (h.future = [] → (takeSnapshot current h).future = []) := by
  unfold takeSnapshot
  cases hlast : h.past.getLast? with
  | none =>
    rw [if_neg Bool.false_ne_true]
    exact ⟨List.getLast?_concat _, fun _ => rfl⟩
  | some last =>
    by_cases hdup : (last.nodes == current.nodes && last.edges == current.edges) = true
    · have hlc : last = current := by
        rw [Bool.and_eq_true] at hdup
        exact snapshot_ext (beq_iff_eq.mp hdup.1) (beq_iff_eq.mp hdup.2)
      rw [if_pos hdup]
      exact ⟨hlc ▸ hlast, fun hf => hf⟩
    · rw [if_neg hdup]
      exact ⟨List.getLast?_concat _, fun _ => rfl⟩

/-- C9: after snapshotting state `S0` and mutating the live graph to
`S1` (with no pending redo states), `undo` restores `S0` as the live
graph and leaves `future = [S1]`; a following `redo` restores `S1`,
pushes `S0` back on top of `past`, and empties `future` — so undo then
redo is the identity on the live graph.  `undo` with empty `past` and
`redo` with empty `future` are no-ops. -/
theorem C9_undo_redo (S0 S1 : GraphSnapshot) (h : History) (hf : h.future = []) :
    (undoState (mutateState S1 ⟨S0, h⟩)).graph = S0 ∧
    (undoState (mutateState S1 ⟨S0, h⟩)).history.future = [S1] ∧
    (redoState (undoState (mutateState S1 ⟨S0, h⟩))).graph = S1 ∧
    (redoState (undoState (mutateState S1 ⟨S0, h⟩))).history.future = [] ∧
    (redoState (undoState (mutateState S1 ⟨S0, h⟩))).history.past
      = (undoState (mutateState S1 ⟨S0, h⟩)).history.past ++ [S0] ∧
    (∀ (g : GraphSnapshot) (f : List GraphSnapshot),
      undoState ⟨g, ⟨[], f⟩⟩ = ⟨g, ⟨[], f⟩⟩) ∧
    (∀ (g : GraphSnapshot) (p : List GraphSnapshot),
      redoState ⟨g, ⟨p, []⟩⟩ = ⟨g, ⟨p, []⟩⟩) := by
  obtain ⟨hlast, hfut⟩ := takeSnapshot_last S0 h
  have hfut' : (takeSnapshot S0 h).future = [] := hfut hf
  have hpne : (takeSnapshot S0 h).past ≠ [] := by
    intro hc
    rw [hc] at hlast
    simp at hlast
  have hplen : ¬ (takeSnapshot S0 h).past.length = 0 := by
    simpa [List.length_eq_zero] using hpne
  have hundo : undoState (mutateState S1 ⟨S0, h⟩)
      = ⟨S0, ⟨(takeSnapshot S0 h).past.dropLast, [S1]⟩⟩ := by
    show undoState ⟨S1, takeSnapshot S0 h⟩ = _
    unfold undoState
    rw [if_neg hplen]
    simp only [hlast]
    rw [hfut']
  rw [hundo]
  refine ⟨rfl, rfl, ?_, ?_, ?_, ?_, ?_⟩
  · rfl
  · rfl
  · rfl
  · intro g f
    simp [undoState]
  · intro g p
    simp [redoState]

/-- Witness for C9: the concrete two-snapshot scenario. -/
theorem C9_undo_redo_witness :
    (undoState (mutateState snapB ⟨snapA, ⟨[], []⟩⟩)).graph = snapA ∧
    (undoState (mutateState snapB ⟨snapA, ⟨[], []⟩⟩)).history.future = [snapB] ∧
    (redoState (undoState (mutateState snapB ⟨snapA, ⟨[], []⟩⟩))).graph = snapB := by
  obtain ⟨h1, h2, h3, _⟩ := C9_undo_redo snapA snapB ⟨[], []⟩ rfl
  exact ⟨h1, h2, h3⟩

/-- A family of pairwise-distinct snapshots (distinguished by length). -/
def wSnap (i : Nat) : GraphSnapshot := ⟨List.replicate i (mkOutput "o"), []⟩

theorem wSnap_inj {i j : Nat} (h : wSnap i = wSnap j) : i = j := by
  have := congrArg (fun s => s.nodes.length) h
  simpa [wSnap] using this

/-- C8: (i) across every sequence of history operations from an empty
history, `past` never holds more than 21 entries; (ii) a run of 25
mutations through pairwise-distinct states from an empty history leaves
`past` holding exactly the 21 most recent snapshotted states (the
oldest 4 evicted). -/
theorem C8_history_bound :
    (∀ (ops : List HistOp) (g : GraphSnapshot),
      (applyHistOps ⟨g, ⟨[], []⟩⟩ ops).history.past.length ≤ 21) ∧
    (∀ (g0 : GraphSnapshot) (gs : List GraphSnapshot),
      gs.length = 25 → List.Chain' (fun x y => x ≠ y) (g0 :: gs) →
      (applyHistOps ⟨g0, ⟨[], []⟩⟩ (gs.map HistOp.mutate)).history.past
          = ((g0 :: gs).dropLast).drop 4 ∧
      (applyHistOps ⟨g0, ⟨[], []⟩⟩ (gs.map HistOp.mutate)).history.past.length = 21) := by
  constructor
  · intro ops g
    have h := history_size_invariant ops ⟨g, ⟨[], []⟩⟩ (by simp)
    omega
  · intro g0 gs hlen hchain
    have hrun := mutate_chain_run gs g0 [] hchain (by intro x hx; simp at hx)
    have hstate : (⟨g0, ⟨([] : List GraphSnapshot).drop (([] : List GraphSnapshot).length - 21),
        []⟩⟩ : FlowState) = ⟨g0, ⟨[], []⟩⟩ := rfl
    rw [hstate] at hrun
    have hdll : ((g0 :: gs).dropLast).length = 25 := by
      rw [List.length_dropLast]
      simp [hlen]
    have happ : ([] : List GraphSnapshot) ++ (g0 :: gs).dropLast = (g0 :: gs).dropLast :=
      List.nil_append _
    rw [happ] at hrun
    rw [hdll] at hrun
    refine ⟨hrun.1, ?_⟩
    rw [hrun.1, List.length_drop, hdll]

/-- Witness for C8: a single undo from empty history respects the
bound, and 25 distinct mutations leave exactly 21 past entries. -/
theorem C8_history_bound_witness :
    (applyHistOps ⟨wSnap 0, ⟨[], []⟩⟩ [HistOp.undo]).history.past.length ≤ 21 ∧
    (applyHistOps ⟨wSnap 0, ⟨[], []⟩⟩
      (((List.range 25).map (fun i => wSnap (i + 1))).map HistOp.mutate)).history.past.length
      = 21 := by
  have hchain : List.Chain' (fun x y => x ≠ y)
      (wSnap 0 :: (List.range 25).map (fun i => wSnap (i + 1))) := by
    have hform : wSnap 0 :: (List.range 25).map (fun i => wSnap (i + 1))
        = (List.range 26).map wSnap := by
      rw [List.range_succ_eq_map]
      simp [List.map_map]
      rfl
    rw [hform]
    apply List.Pairwise.chain'
    apply List.pairwise_map.mpr
    apply List.Pairwise.imp ?_ (List.pairwise_lt_range 26)
    intro i j hij hc
    exact Nat.ne_of_lt hij (wSnap_inj hc)
  constructor
  · exact C8_history_bound.1 [HistOp.undo] (wSnap 0)
  · exact (C8_history_bound.2 (wSnap 0) ((List.range 25).map (fun i => wSnap (i + 1)))
      (by simp) hchain).2
